import Mathlib

/-!
Verification of the PopFrame settlement-network and agglomeration engine
(`popframe/preprocessing/level_filler.py`, `popframe/method/popuation_frame.py`,
`popframe/method/aglomeration.py`) against its specification.

The Python code is shallowly embedded: tables become lists of structures,
the accessibility matrix a function into `ℤ` (float travel times idealised
as exact integer minutes; the algorithms only compare, subtract and scale
them), and planar geometry an abstract finite point carrier
(`Finset ℕ`) on which the geometric predicates actually used by the code
(`intersects`, `unary_union`, point membership, boundary clipping) have
their set-theoretic meaning.
-/

namespace PopFrame

/-! ## Level hierarchy (`level_filler.py`) -/

/-- `LevelFiller.population_thresholds`: ordered dict of
`level ↦ (lower_bound, upper_bound)`, iterated in insertion order.
`float('inf')` is embedded as `none`. -/
def population_thresholds : List (String × ℤ × Option ℤ) :=
  [("Сверхкрупный город", 3000000, none),
   ("Крупнейший город", 1000000, some 3000000),
   ("Крупный город", 250000, some 1000000),
   ("Большой город", 100000, some 250000),
   ("Средний город", 50000, some 100000),
   ("Малый город", 5000, some 50000),
   ("Крупное сельское поселение", 3000, some 5000),
   ("Большое сельское поселение", 1000, some 3000),
   ("Среднее сельское поселение", 200, some 1000),
   ("Малое сельское поселение", 0, some 200)]

/-- The guard `lower_bound < population <= upper_bound` of `_assign_level`. -/
def inInterval (p : ℤ) (lo : ℤ) (hi : Option ℤ) : Bool :=
  decide (lo < p) && (match hi with
    | none => true
    | some h => decide (p ≤ h))

/-- The `for level, (lower_bound, upper_bound) in ...` loop of
`LevelFiller._assign_level`: first matching interval wins, otherwise the
sentinel string is returned. -/
def assignFrom (p : ℤ) : List (String × ℤ × Option ℤ) → String
  | [] => "Неизвестный уровень"
  | e :: rest => if inInterval p e.2.1 e.2.2 then e.1 else assignFrom p rest

/-- `LevelFiller._assign_level` on a row with population `p`. -/
def assign_level (p : ℤ) : String :=
  assignFrom p population_thresholds

/-! ## Agglomeration merge pipeline (`aglomeration.py`)

Geometry is abstracted to a finite set of sample points (`Finset ℕ`):
`intersects` is nonempty intersection, `unary_union` is set union, a town
point lies in a polygon iff the point belongs to the set, and clipping to
the region boundary is set intersection.  These are exactly the laws the
merge algorithm relies on for plane polygons. -/

/-- A seed agglomeration row (`name`, `geometry`) as produced by
`_build_agglomeration` and fed to `_merge_intersecting_agglomerations`. -/
structure SeedRow where
  name : String
  geom : Finset ℕ
  deriving DecidableEq

/-- A merged agglomeration row of `_merge_intersecting_agglomerations`.
`core_cities` is rendered by `', '.join(merged_names)` in the source; the
underlying name set `merged_names` is kept.  `mtype` is the `'type'`
column. -/
structure MergedRow where
  geometry : Finset ℕ
  mtype : String
  core_cities : Finset String
  population : ℕ
  agglomeration_level : ℕ
  deriving DecidableEq

/-- A settlement row as consumed by the agglomeration pipeline: name,
population and point geometry (an abstract sample point). -/
structure TownPt where
  name : String
  population : ℕ
  pt : ℕ
  deriving DecidableEq

/-- `towns[towns.intersects(geometry)]['population'].sum()`. -/
def popIn (towns : List TownPt) (g : Finset ℕ) : ℕ :=
  ((towns.filter (fun t => decide (t.pt ∈ g))).map TownPt.population).sum

/-- The `if population_from_towns <= 250000: agglomeration_level = 1 ...`
ladder of `_merge_intersecting_agglomerations`. -/
def aggLevelOf (pop : ℕ) : ℕ :=
  if pop ≤ 250000 then 1
  else if pop ≤ 500000 then 2
  else if pop ≤ 1000000 then 3
  else if pop ≤ 5000000 then 4
  else 5

/-- State of one scan over the not-yet-processed agglomeration rows. -/
structure MergeScan where
  geometry : Finset ℕ
  names : Finset String
  absorbed : ℕ
  remaining : List SeedRow
  changed : Bool
  deriving DecidableEq

/-- One full scan of the unprocessed rows: the inner
`for j, row_j in gdf.iterrows()` loop of
`_merge_intersecting_agglomerations` (the first pass and the body of the
`while still_intersecting` loop both have this shape).  Every row whose
geometry intersects the current geometry is absorbed (`unary_union` of the
geometries, union of the name sets, `overlapping_agglomerations` grows by
one); the others stay unprocessed. -/
def mergePass (g : Finset ℕ) (ns : Finset String) (cnt : ℕ) :
    List SeedRow → MergeScan
  | [] => ⟨g, ns, cnt, [], false⟩
  | r :: rest =>
    if (g ∩ r.geom).Nonempty then
      let s := mergePass (g ∪ r.geom) (insert r.name ns) (cnt + 1) rest
      { s with changed := true }
    else
      let s := mergePass g ns cnt rest
      { s with remaining := r :: s.remaining }

/-- The `while still_intersecting` loop: rescan until a scan absorbs
nothing.  `fuel` bounds the iteration count; a productive scan strictly
shrinks the unprocessed list, so `rows.length + 1` scans always reach the
fixed point. -/
def mergeLoop : ℕ → Finset ℕ → Finset String → ℕ → List SeedRow → MergeScan
  | 0, g, ns, cnt, rows => ⟨g, ns, cnt, rows, false⟩
  | fuel + 1, g, ns, cnt, rows =>
    let s := mergePass g ns cnt rows
    if s.changed then mergeLoop fuel s.geometry s.names s.absorbed s.remaining
    else s

/-- The outer `for i, row_i in gdf.iterrows()` loop of
`_merge_intersecting_agglomerations`: rows already absorbed
(`processed_indices`) are exactly those removed from the unprocessed list,
so the outer loop recurses on the remaining rows.  For each group the
merged row is assembled as in the source: `Polycentric` iff more than one
seed was merged, the union of the names, the population summed over the
towns intersecting the merged geometry, and the level ladder applied to
that population.  `fuel` makes the recursion structural; `rows.length`
suffices. -/
def mergeAll (towns : List TownPt) : ℕ → List SeedRow → List MergedRow
  | 0, _ => []
  | _, [] => []
  | fuel + 1, r :: rest =>
    let s := mergeLoop (rest.length + 1) r.geom {r.name} 1 rest
    let pop := popIn towns s.geometry
    { geometry := s.geometry,
      mtype := if 1 < s.absorbed then "Polycentric" else "Monocentric",
      core_cities := s.names,
      population := pop,
      agglomeration_level := aggLevelOf pop } :: mergeAll towns fuel s.remaining

/-- `AgglomerationBuilder._merge_intersecting_agglomerations`. -/
def mergeAgglomerations (towns : List TownPt) (rows : List SeedRow) : List MergedRow :=
  mergeAll towns rows.length rows

/-- `gpd.overlay(agglomeration_gdf, region_boundary, how='intersection')`
for a single-polygon region boundary: each geometry is clipped to the
region, and rows whose clipped geometry is empty are dropped. -/
def overlayIntersection (rows : List MergedRow) (region : Finset ℕ) : List MergedRow :=
  rows.filterMap (fun r =>
    let g := r.geometry ∩ region
    if g.Nonempty then some { r with geometry := g } else none)

/-- `_simplify_multipolygons`: reduces a `MultiPolygon` to its largest
part.  In this abstraction every geometry is a single polygon, on which
the source lambda is the identity. -/
def simplifyMultipolygons (rows : List MergedRow) : List MergedRow :=
  rows.map (fun r => r)

/-- `_simplify_multipolygons` applied to the seed table (step
"Step 4" run right after `_build_agglomeration` in the source); identity
on single polygons, as above. -/
def simplifySeedPolygons (rows : List SeedRow) : List SeedRow :=
  rows.map (fun r => r)

/-- Step 5 of `get_agglomerations` in the point-set abstraction (single
valid polygons, on which `Polygon(geom.exterior)` is the identity); the
validity flag itself is modelled separately by `finalGeometryCorrection`
below. -/
def finalCorrection (rows : List MergedRow) : List MergedRow :=
  rows.map (fun r => r)

/-- `AgglomerationBuilder.get_agglomerations` from the seed table on (the
`_build_agglomeration` phase is modelled separately below): simplify the
seed polygons, merge intersecting agglomerations, overlay on the region
boundary, simplify again, apply the final geometry correction. -/
def get_agglomerations (towns : List TownPt) (seeds : List SeedRow)
    (region : Finset ℕ) : List MergedRow :=
  finalCorrection (simplifyMultipolygons
    (overlayIntersection (mergeAgglomerations towns (simplifySeedPolygons seeds)) region))

/-- A geometry with its shapely validity flag, for the final correction
step of `get_agglomerations`. -/
structure PGeom where
  pts : Finset ℕ
  valid : Bool
  deriving DecidableEq

/-- `shapely.Polygon(geom.exterior)`: the polygon rebuilt from the
exterior ring — a valid polygon on the same exterior boundary (interior
holes, which this abstraction does not represent, would be filled). -/
def polygonOfExterior (g : PGeom) : PGeom :=
  { pts := g.pts, valid := true }

/-- Step 5 of `get_agglomerations`:
`apply(lambda geom: Polygon(geom.exterior) if geom.is_valid else geom)`.
Note the condition: the rebuild is applied when the geometry IS valid; an
invalid geometry is kept unchanged, and no row is ever dropped. -/
def finalGeometryCorrection (rows : List PGeom) : List PGeom :=
  rows.map (fun g => if g.valid then polygonOfExterior g else g)

/-- Union of the geometries of a list of seed rows. -/
def unionGeoms (rows : List SeedRow) : Finset ℕ :=
  rows.foldr (fun r acc => r.geom ∪ acc) ∅

/-! ## Sorting helper -/

/-- Stable insertion of one element into a sorted list. -/
def insertLe {α : Type} (le : α → α → Bool) (a : α) : List α → List α
  | [] => [a]
  | b :: bs => if le a b then a :: b :: bs else b :: insertLe le a bs

/-- Stable insertion sort, modelling the sorted scans of the source
(`sorted(...)`, `sort_values(...)`). -/
def sortLe {α : Type} (le : α → α → Bool) : List α → List α
  | [] => []
  | a :: as => insertLe le a (sortLe le as)

/-! ## Agglomeration build phase (`AgglomerationBuilder._build_agglomeration`)

The geometry grown around an anchor is a `unary_union` of buffer discs;
it is kept symbolically as the list of (buffer centre, radius) pairs that
determine it. -/

/-- A towns-table row as consumed by `_build_agglomeration`: `id`, `name`,
`population`, `level` and point geometry (abstract point). -/
structure BTown where
  id : ℕ
  name : String
  population : ℕ
  level : String
  pt : ℕ
  deriving DecidableEq

/-- `CITY_LEVELS` (module constant of `aglomeration.py`). -/
def CITY_LEVELS : List String :=
  ["Малый город", "Средний город", "Большой город", "Крупный город",
   "Крупнейший город", "Сверхкрупный город"]

/-- `RADIUS = 500`. -/
def RADIUS : ℤ := 500

/-- `MIN_POPULATION = 15000`. -/
def MIN_POPULATION : ℕ := 15000

/-- `towns.set_index('id')['population'].get(n)`: population of the town
with id `n` (`0` when the id is absent; the looked-up ids always exist,
and `set_index` on duplicated ids would make the Python lookup fail, so
the theorems assume unique ids). -/
def popOf (towns : List BTown) (n : ℕ) : ℕ :=
  match towns.find? (fun t => t.id == n) with
  | some t => t.population
  | none => 0

/-- `towns.set_index('id')['name'].get(n)`. -/
def nameOf (towns : List BTown) (n : ℕ) : String :=
  match towns.find? (fun t => t.id == n) with
  | some t => t.name
  | none => ""

/-- Point geometry of the town with id `n`. -/
def ptOf (towns : List BTown) (n : ℕ) : ℕ :=
  match towns.find? (fun t => t.id == n) with
  | some t => t.pt
  | none => 0

/-- A seed agglomeration returned by `_get_agglomeration_around_node`:
`discs` is the `unary_union` of one buffer per reachable settlement
(kept symbolically as (centre point, left-distance radius) pairs),
`members` is `nodes_in_agglomeration`. -/
structure SeedAgg where
  name : String
  discs : List (ℕ × ℤ)
  members : List ℕ
  deriving DecidableEq

/-- `_get_agglomeration_around_node`: the settlements whose travel time
from `start` (row of the accessibility matrix, whose index equals the id
column of the towns table in table order) is at most `maxTime`; each one
contributes a buffer of radius `(max_time − time) × RADIUS` around its
point.  `none` when no settlement is within reach.  `name` is filled by
the caller. -/
def getAgglomerationAroundNode (m : ℕ → ℕ → ℤ) (towns : List BTown)
    (start : ℕ) (maxTime : ℤ) : Option SeedAgg :=
  let withinTime := (towns.map BTown.id).filter (fun n => decide (m start n ≤ maxTime))
  if withinTime.isEmpty then none
  else some
    { name := "",
      discs := withinTime.map (fun n => (ptOf towns n, (maxTime - m start n) * RADIUS)),
      members := withinTime }

/-- `sort_values(by='population', ascending=False)` (the source's
quicksort leaves tie order unspecified; the stable order is one faithful
choice). -/
def sortByPopDesc (l : List BTown) : List BTown :=
  sortLe (fun t u => decide (u.population ≤ t.population)) l

/-- The per-level candidate streams of `_build_agglomeration`:
`for level_index, level in enumerate(reversed(CITY_LEVELS))` with
`max_time = 80 − 10 × level_index`, the level's rows sorted by descending
population. -/
def levelSeeds (towns : List BTown) : List (ℤ × List BTown) :=
  CITY_LEVELS.reverse.enum.map (fun p =>
    ((80 : ℤ) - 10 * (p.1 : ℤ), sortByPopDesc (towns.filter (fun t => t.level == p.2))))

/-- One iteration of the inner seed loop of `_build_agglomeration`.  The
module-level mutable dict `IN_AGGLOMERATION` is threaded explicitly as the
`Finset ℕ` component of the state: a settlement already registered or
below `MIN_POPULATION` is skipped; otherwise a seed is grown around it and
all its members below `MIN_POPULATION` are registered. -/
def buildStep (m : ℕ → ℕ → ℤ) (towns : List BTown) (maxTime : ℤ)
    (st : List SeedAgg × Finset ℕ) (node : BTown) : List SeedAgg × Finset ℕ :=
  if node.id ∈ st.2 ∨ node.population < MIN_POPULATION then st
  else
    match getAgglomerationAroundNode m towns node.id maxTime with
    | none => st
    | some agg =>
      (st.1 ++ [{ agg with name := nameOf towns node.id }],
       st.2 ∪ (agg.members.filter (fun n => decide (popOf towns n < MIN_POPULATION))).toFinset)

/-- `AgglomerationBuilder._build_agglomeration`: levels from densest to
least dense, settlements by descending population within a level.  `reg`
is the state of the process-wide `IN_AGGLOMERATION` registry when the call
starts; the second component of the result is its state after the call
(the code never clears it). -/
def build_agglomeration (m : ℕ → ℕ → ℤ) (towns : List BTown)
    (reg : Finset ℕ) : List SeedAgg × Finset ℕ :=
  (levelSeeds towns).foldl
    (fun st lvl => lvl.2.foldl (buildStep m towns lvl.1) st) ([], reg)

/-! ## Membership classification (`evaluate_city_agglomeration_status`) -/

/-- An agglomeration row as consumed by
`evaluate_city_agglomeration_status`: geometry, level, and the core city
name set (`core_cities.split(', ')`). -/
structure AggRow where
  geometry : Finset ℕ
  agglomeration_level : ℕ
  core_cities : Finset String
  deriving DecidableEq

/-- The inner `for agg_idx, agg in agglomeration_gdf.iterrows()` loop of
`evaluate_city_agglomeration_status` for one town: state is
`(in_agglomeration, current_agglomeration_level)`; returns
`(in_agglomeration, is_core_city, current_agglomeration_level)`.  The loop
breaks at the first agglomeration containing the town's point that lists
the town among its core cities; otherwise every containing agglomeration
updates the level. -/
def statusLoop (pt : ℕ) (nm : String) :
    List AggRow → Bool → ℕ → Bool × Bool × ℕ
  | [], inAgg, cur => (inAgg, false, cur)
  | a :: rest, inAgg, cur =>
    if pt ∈ a.geometry then
      if nm ∈ a.core_cities then (true, true, a.agglomeration_level)
      else statusLoop pt nm rest true a.agglomeration_level
    else statusLoop pt nm rest inAgg cur

/-- `evaluate_city_agglomeration_status` for one town: the
`agglomeration_status` string and `agglomeration_level` appended to the
towns table. -/
def evaluateStatus (aggs : List AggRow) (pt : ℕ) (nm : String) : String × ℕ :=
  let r := statusLoop pt nm aggs false 0
  if r.2.1 then ("Центр агломерации", r.2.2)
  else if r.1 = false then ("Вне агломерации", 0)
  else ("В агломерации", r.2.2)

/-! ## Network builder (`popuation_frame.py`) -/

/-- A towns-table row as consumed by `PopFrame.build_network_frame`: the
pandas index label (`id`, which is also the accessibility-matrix label),
`name`, `population`, `level`, and the point position (projected
coordinates, exact integers). -/
structure Town where
  id : ℕ
  name : String
  population : ℕ
  level : String
  x : ℤ
  y : ℤ
  deriving DecidableEq

/-- The ordered `levels` list of `build_network_frame` (ascending
density). -/
def levels : List String :=
  ["Малое сельское поселение", "Среднее сельское поселение",
   "Большое сельское поселение", "Крупное сельское поселение",
   "Малый город", "Средний город", "Большой город", "Крупный город",
   "Крупнейший город", "Сверхкрупный город"]

/-- `levels.index(s)`. -/
def lvlIdx (s : String) : ℕ := levels.indexOf s

/-- An edge of the `networkx` graph together with its attribute dict as
written by the code: `level` is always set, and no weight/travel-time key
is ever set (`time = none` represents the absent key). -/
structure Edge where
  u : ℕ
  v : ℕ
  level : String
  time : Option ℤ
  deriving DecidableEq

/-- `G.has_edge(a, b)` (undirected). -/
def hasEdge (es : List Edge) (a b : ℕ) : Bool :=
  es.any (fun e => (e.u == a && e.v == b) || (e.u == b && e.v == a))

/-- `G.add_edge(u, v, level=lvl)`: updates the attributes of an existing
edge, otherwise appends a new one (with no travel-time attribute). -/
def addEdge (es : List Edge) (u v : ℕ) (lvl : String) : List Edge :=
  if hasEdge es u v then
    es.map (fun e =>
      if (e.u == u && e.v == v) || (e.u == v && e.v == u) then
        { e with level := lvl } else e)
  else es ++ [⟨u, v, lvl, none⟩]

/-- `distances.idxmin()`: the first label (in `to_towns` order) whose
travel time from `src` is minimal. -/
def idxmin (m : ℕ → ℕ → ℤ) (src : ℕ) : List ℕ → Option ℕ
  | [] => none
  | t :: ts => some (ts.foldl (fun best c => if m src c < m src best then c else best) t)

/-- `_euclidean_distance` squared: the square root is strictly monotone,
so minimising the squared distance models `min(..., key=distance)` in
exact arithmetic. -/
def sqDist (p q : ℤ × ℤ) : ℤ := (p.1 - q.1) ^ 2 + (p.2 - q.2) ^ 2

/-- Position of the town with a given id. -/
def posOf (towns : List Town) (i : ℕ) : ℤ × ℤ :=
  match towns.find? (fun t => t.id == i) with
  | some t => (t.x, t.y)
  | none => (0, 0)

/-- `min(to_towns, key=euclidean distance to idx)`: the first minimal
candidate. -/
def euclidMin (towns : List Town) (src : ℕ) : List ℕ → Option ℕ
  | [] => none
  | t :: ts => some (ts.foldl (fun best c =>
      if sqDist (posOf towns src) (posOf towns c) <
         sqDist (posOf towns src) (posOf towns best) then c else best) t)

/-- First loop of `PopFrame._connect_levels`: each `from`-town is linked
to its travel-time `idxmin` among the `to`-towns, but only behind the
guard `if nearest_idx and not G.has_edge(idx, nearest_idx)` — the Python
truthiness test on the pandas label skips label `0`.  The towns for which
no edge was added stay in `unconnected_from_towns` (second state
component). -/
def connectPass1 (m : ℕ → ℕ → ℤ) (fromLevel : String) (toTowns : List ℕ) :
    List ℕ → List Edge × List ℕ → List Edge × List ℕ
  | [], st => st
  | i :: rest, st =>
    match idxmin m i toTowns with
    | none => connectPass1 m fromLevel toTowns rest st
    | some nearest =>
      if nearest ≠ 0 ∧ hasEdge st.1 i nearest = false then
        connectPass1 m fromLevel toTowns rest
          (st.1 ++ [⟨i, nearest, fromLevel, none⟩], st.2)
      else connectPass1 m fromLevel toTowns rest (st.1, st.2 ++ [i])

/-- Second loop of `_connect_levels`: every still-unconnected `from`-town
is linked to the Euclidean-nearest `to`-town instead. -/
def connectPass2 (towns : List Town) (fromLevel : String) (toTowns : List ℕ) :
    List ℕ → List Edge → List Edge
  | [], es => es
  | i :: rest, es =>
    match euclidMin towns i toTowns with
    | none => connectPass2 towns fromLevel toTowns rest es
    | some nearest =>
      connectPass2 towns fromLevel toTowns rest (addEdge es i nearest fromLevel)

/-- `PopFrame._connect_levels`. -/
def connectLevels (m : ℕ → ℕ → ℤ) (towns : List Town) (fromLevel : String)
    (toLevels : List String) (es : List Edge) : List Edge :=
  let fromTowns := (towns.filter (fun t => t.level == fromLevel)).map Town.id
  let toTowns := (towns.filter (fun t => toLevels.contains t.level)).map Town.id
  if toTowns.isEmpty then es
  else
    let st := connectPass1 m fromLevel toTowns fromTowns (es, [])
    connectPass2 towns fromLevel toTowns st.2 st.1

/-- Candidate edges of the helper graph `H` of `_connect_same_level`:
`H.add_edge` is called for every ordered pair, so the weight that sticks
for the unordered pair `{a, b}` (with `a` before `b` in the id list) is
the last one written, `matrix.at[b, a]`. -/
def mstCandidates (m : ℕ → ℕ → ℤ) : List ℕ → List (ℕ × ℕ × ℤ)
  | [] => []
  | a :: rest => rest.map (fun b => (a, b, m b a)) ++ mstCandidates m rest

/-- The ascending stable scan order of Kruskal's algorithm in
`nx.minimum_spanning_tree`. -/
def sortCand (cand : List (ℕ × ℕ × ℤ)) : List (ℕ × ℕ × ℤ) :=
  sortLe (fun e1 e2 => decide (e1.2.2 ≤ e2.2.2)) cand

/-- Union–find query of Kruskal: the endpoints lie in one component. -/
def sameComp (comps : List (List ℕ)) (a b : ℕ) : Bool :=
  comps.any (fun c => c.contains a && c.contains b)

/-- Union–find merge: the components of `a` and `b` are fused. -/
def mergeComp (comps : List (List ℕ)) (a b : ℕ) : List (List ℕ) :=
  ((comps.filter (fun c => c.contains a)).flatten ++
    (comps.filter (fun c => c.contains b)).flatten) ::
  comps.filter (fun c => !c.contains a && !c.contains b)

/-- Kruskal's greedy scan: an edge is accepted iff its endpoints are in
different components, which are then merged. -/
def kruskalGo : List (ℕ × ℕ × ℤ) → List (List ℕ) → List (ℕ × ℕ) →
    List (ℕ × ℕ) × List (List ℕ)
  | [], comps, acc => (acc, comps)
  | (a, b, _) :: rest, comps, acc =>
    if sameComp comps a b then kruskalGo rest comps acc
    else kruskalGo rest (mergeComp comps a b) (acc ++ [(a, b)])

/-- `nx.minimum_spanning_tree` (Kruskal) on the complete helper graph
over `ids`: the accepted edges. -/
def kruskal (ids : List ℕ) (cand : List (ℕ × ℕ × ℤ)) : List (ℕ × ℕ) :=
  (kruskalGo cand (ids.map (fun i => [i])) []).1

/-- `PopFrame._connect_same_level`: when more than one town has the given
level, every edge of the minimum spanning tree of the complete
travel-time graph is added, tagged with the level (and no weight). -/
def connectSameLevel (m : ℕ → ℕ → ℤ) (towns : List Town) (lvl : String)
    (es : List Edge) : List Edge :=
  let ids := (towns.filter (fun t => t.level == lvl)).map Town.id
  if 1 < ids.length then
    (kruskal ids (sortCand (mstCandidates m ids))).foldl
      (fun es2 p => addEdge es2 p.1 p.2 lvl) es
  else es

/-- The `(from_level, to_levels)` pairs of the
`for i, level in enumerate(levels[:-1])` loop: every level except the
topmost paired with all strictly denser levels. -/
def stepsOf : List String → List (String × List String)
  | [] => []
  | [_] => []
  | l :: rest => (l, rest) :: stepsOf rest

/-- `max(towns['level'], key=lambda level: levels.index(level))`: the
densest level actually present (Python's `max` keeps the first
maximum). -/
def highestLevel (towns : List Town) : String :=
  match towns with
  | [] => ""
  | t :: ts => ts.foldl (fun best u =>
      if lvlIdx best < lvlIdx u.level then u.level else best) t.level

/-- Ids of the towns at the densest present level. -/
def topIds (towns : List Town) : List ℕ :=
  (towns.filter (fun t => t.level == highestLevel towns)).map Town.id

/-- The MST edges added for the densest present level. -/
def topMstEdges (m : ℕ → ℕ → ℤ) (towns : List Town) : List (ℕ × ℕ) :=
  kruskal (topIds towns) (sortCand (mstCandidates m (topIds towns)))

/-- `PopFrame.build_network_frame`: the edge list of the produced graph
(its nodes are the towns themselves). -/
def build_network_frame (m : ℕ → ℕ → ℤ) (towns : List Town) : List Edge :=
  let es := (stepsOf levels).foldl
    (fun es2 st => connectLevels m towns st.1 st.2 es2) []
  connectSameLevel m towns (highestLevel towns) es

/-- Undirected adjacency in an edge list. -/
def edgePair (es : List Edge) (a b : ℕ) : Prop :=
  ∃ e ∈ es, (e.u = a ∧ e.v = b) ∨ (e.u = b ∧ e.v = a)

/-- Reachability in the graph spanned by an edge list. -/
inductive Conn (es : List Edge) : ℕ → ℕ → Prop where
  | refl (a : ℕ) : Conn es a a
  | tail {a b c : ℕ} : Conn es a b → edgePair es b c → Conn es a c

/-- Undirected adjacency in a pair list. -/
def pairIn (ps : List (ℕ × ℕ)) (a b : ℕ) : Prop :=
  (a, b) ∈ ps ∨ (b, a) ∈ ps

/-- Reachability via undirected edges given as pairs. -/
inductive ConnP (ps : List (ℕ × ℕ)) : ℕ → ℕ → Prop where
  | refl (a : ℕ) : ConnP ps a a
  | tail {a b c : ℕ} : ConnP ps a b → pairIn ps b c → ConnP ps a c

/-- What the builder actually writes on every edge: no travel-time/weight
attribute at all, and a `level` attribute equal to the level of the less
dense endpoint (for cross-level edges the `from`-town's level, for MST
edges the common level of both endpoints). -/
def EdgeInv (towns : List Town) (e : Edge) : Prop :=
  e.time = none ∧
  ∃ tu ∈ towns, ∃ tv ∈ towns,
    ((tu.id = e.u ∧ tv.id = e.v) ∨ (tu.id = e.v ∧ tv.id = e.u)) ∧
    e.level = tu.level ∧ lvlIdx tu.level ≤ lvlIdx tv.level

/-- The components list is a partition of `ids`. -/
def PartitionOf (comps : List (List ℕ)) (ids : List ℕ) : Prop :=
  (∀ i ∈ ids, ∃ c ∈ comps, i ∈ c) ∧
  (∀ c ∈ comps, ∀ i ∈ c, i ∈ ids) ∧
  comps.Pairwise (fun c d => ∀ x, x ∈ c → x ∉ d) ∧
  ∀ c ∈ comps, c ≠ []

/-- Every component is connected by the accepted edges. -/
def CompConn (comps : List (List ℕ)) (acc : List (ℕ × ℕ)) : Prop :=
  ∀ c ∈ comps, ∀ x ∈ c, ∀ y ∈ c, ConnP acc x y

end PopFrame

namespace PopFrame

/-! ## Theorems on the level hierarchy -/

theorem assignFrom_spec (p : ℤ) (L : List (String × ℤ × Option ℤ)) :
    (∃ e ∈ L, inInterval p e.2.1 e.2.2 = true ∧ assignFrom p L = e.1) ∨
    ((∀ e ∈ L, inInterval p e.2.1 e.2.2 = false) ∧
      assignFrom p L = "Неизвестный уровень") := by
  induction L with
  | nil => exact Or.inr ⟨by simp, rfl⟩
  | cons e rest ih =>
    by_cases h : inInterval p e.2.1 e.2.2 = true
    · exact Or.inl ⟨e, by simp, h, by simp [assignFrom, h]⟩
    · have hf : inInterval p e.2.1 e.2.2 = false := by
        revert h; cases inInterval p e.2.1 e.2.2 <;> simp
      have hrw : assignFrom p (e :: rest) = assignFrom p rest := by
        simp [assignFrom, hf]
      rcases ih with ⟨e', he', hI, heq⟩ | ⟨hall, heq⟩
      · exact Or.inl ⟨e', by simp [he'], hI, by rw [hrw]; exact heq⟩
      · refine Or.inr ⟨?_, by rw [hrw]; exact heq⟩
        intro e'' he''
        rcases List.mem_cons.mp he'' with rfl | h'
        · exact hf
        · exact hall e'' h'

theorem thresholds_total (p : ℤ) (hp : 0 < p) :
    ∃ e ∈ population_thresholds, inInterval p e.2.1 e.2.2 = true := by
  rcases le_or_lt p 200 with h1 | h1
  · exact ⟨("Малое сельское поселение", 0, some 200), by simp [population_thresholds],
      by simp [inInterval]; omega⟩
  rcases le_or_lt p 1000 with h2 | h2
  · exact ⟨("Среднее сельское поселение", 200, some 1000), by simp [population_thresholds],
      by simp [inInterval]; omega⟩
  rcases le_or_lt p 3000 with h3 | h3
  · exact ⟨("Большое сельское поселение", 1000, some 3000), by simp [population_thresholds],
      by simp [inInterval]; omega⟩
  rcases le_or_lt p 5000 with h4 | h4
  · exact ⟨("Крупное сельское поселение", 3000, some 5000), by simp [population_thresholds],
      by simp [inInterval]; omega⟩
  rcases le_or_lt p 50000 with h5 | h5
  · exact ⟨("Малый город", 5000, some 50000), by simp [population_thresholds],
      by simp [inInterval]; omega⟩
  rcases le_or_lt p 100000 with h6 | h6
  · exact ⟨("Средний город", 50000, some 100000), by simp [population_thresholds],
      by simp [inInterval]; omega⟩
  rcases le_or_lt p 250000 with h7 | h7
  · exact ⟨("Большой город", 100000, some 250000), by simp [population_thresholds],
      by simp [inInterval]; omega⟩
  rcases le_or_lt p 1000000 with h8 | h8
  · exact ⟨("Крупный город", 250000, some 1000000), by simp [population_thresholds],
      by simp [inInterval]; omega⟩
  rcases le_or_lt p 3000000 with h9 | h9
  · exact ⟨("Крупнейший город", 1000000, some 3000000), by simp [population_thresholds],
      by simp [inInterval]; omega⟩
  · exact ⟨("Сверхкрупный город", 3000000, none), by simp [population_thresholds],
      by simp [inInterval]; omega⟩

theorem thresholds_disjoint (p : ℤ) :
    ∀ e ∈ population_thresholds, ∀ e' ∈ population_thresholds,
      inInterval p e.2.1 e.2.2 = true → inInterval p e'.2.1 e'.2.2 = true → e = e' := by
  intro e he e' he' hI hI'
  simp only [population_thresholds, List.mem_cons, List.not_mem_nil, or_false] at he he'
  rcases he with rfl|rfl|rfl|rfl|rfl|rfl|rfl|rfl|rfl|rfl <;>
    rcases he' with rfl|rfl|rfl|rfl|rfl|rfl|rfl|rfl|rfl|rfl <;>
    simp [inInterval] at hI hI' ⊢ <;> omega

/-- C5: the hierarchy classifier is total and single-valued on valid input:
for every integer population `p > 0` exactly one of the ten half-open
intervals `(lower, upper]` matches `p`, `_assign_level` returns the level
name of that unique interval, and the result is a pure function of the
population, independent of the order in which rows are classified. -/
theorem assign_level_total_unique (p : ℤ) (hp : 0 < p) :
    (∃ e, e ∈ population_thresholds ∧ inInterval p e.2.1 e.2.2 = true ∧
      assign_level p = e.1 ∧
      ∀ e' ∈ population_thresholds, inInterval p e'.2.1 e'.2.2 = true → e' = e) ∧
    (∀ l l' : List ℤ, l.Perm l' → (l.map assign_level).Perm (l'.map assign_level)) := by
  refine ⟨?_, fun _ _ h => h.map _⟩
  rcases assignFrom_spec p population_thresholds with ⟨e, he, hI, heq⟩ | ⟨hall, _⟩
  · exact ⟨e, he, hI, heq,
      fun e' he' hI' => thresholds_disjoint p e' he' e he hI' hI⟩
  · obtain ⟨e, he, hI⟩ := thresholds_total p hp
    rw [hall e he] at hI
    cases hI

/-- Witness for C5 at `p = 3`. -/
theorem assign_level_total_unique_witness :
    (∃ e, e ∈ population_thresholds ∧ inInterval 3 e.2.1 e.2.2 = true ∧
      assign_level 3 = e.1 ∧
      ∀ e' ∈ population_thresholds, inInterval 3 e'.2.1 e'.2.2 = true → e' = e) ∧
    (∀ l l' : List ℤ, l.Perm l' → (l.map assign_level).Perm (l'.map assign_level)) :=
  assign_level_total_unique 3 (by decide)

/-- C6 counterexample: population `0` is covered by no hierarchy interval,
yet `_assign_level` silently returns the default level value
`"Неизвестный уровень"` instead of reporting an error to the caller (the
function has no error channel at all). -/
theorem assign_level_uncovered_defaults :
    (∀ e ∈ population_thresholds, inInterval 0 e.2.1 e.2.2 = false) ∧
    assign_level 0 = "Неизвестный уровень" :=
  ⟨by decide, rfl⟩

/-- C6 (amended): for every population covered by no hierarchy interval the
classifier returns the sentinel level value `"Неизвестный уровень"` rather
than reporting an error. -/
theorem assign_level_uncovered_sentinel (p : ℤ)
    (h : ∀ e ∈ population_thresholds, inInterval p e.2.1 e.2.2 = false) :
    assign_level p = "Неизвестный уровень" := by
  rcases assignFrom_spec p population_thresholds with ⟨e, he, hI, _⟩ | ⟨_, heq⟩
  · rw [h e he] at hI
    cases hI
  · exact heq

/-- Witness for the amended C6 at `p = 0`. -/
theorem assign_level_uncovered_sentinel_witness :
    assign_level 0 = "Неизвестный уровень" :=
  assign_level_uncovered_sentinel 0 (by decide)

/-! ## Theorems on the merge pipeline -/

theorem unionGeoms_cons (r : SeedRow) (rows : List SeedRow) :
    unionGeoms (r :: rows) = r.geom ∪ unionGeoms rows := rfl

theorem mem_unionGeoms {x : ℕ} :
    ∀ {rows : List SeedRow}, x ∈ unionGeoms rows ↔ ∃ r ∈ rows, x ∈ r.geom := by
  intro rows
  induction rows with
  | nil => simp [unionGeoms]
  | cons r rest ih => simp [unionGeoms_cons, Finset.mem_union, ih]

theorem mergePass_remaining_sublist :
    ∀ (rows : List SeedRow) (g : Finset ℕ) (ns : Finset String) (cnt : ℕ),
      List.Sublist (mergePass g ns cnt rows).remaining rows := by
  intro rows
  induction rows with
  | nil => intro g ns cnt; simp [mergePass]
  | cons r rest ih =>
    intro g ns cnt
    by_cases h : (g ∩ r.geom).Nonempty
    · simp only [mergePass, if_pos h]
      exact (ih _ _ _).trans (List.sublist_cons_self r rest)
    · simp only [mergePass, if_neg h]
      exact (ih _ _ _).cons₂ r

theorem mergePass_not_changed :
    ∀ (rows : List SeedRow) (g : Finset ℕ) (ns : Finset String) (cnt : ℕ),
      (mergePass g ns cnt rows).changed = false →
      mergePass g ns cnt rows = ⟨g, ns, cnt, rows, false⟩ ∧
        ∀ r ∈ rows, g ∩ r.geom = ∅ := by
  intro rows
  induction rows with
  | nil => intro g ns cnt _; exact ⟨rfl, by simp⟩
  | cons r rest ih =>
    intro g ns cnt hch
    by_cases h : (g ∩ r.geom).Nonempty
    · simp only [mergePass, if_pos h] at hch
      exact absurd hch (by simp)
    · simp only [mergePass, if_neg h] at hch ⊢
      obtain ⟨heq, hall⟩ := ih g ns cnt hch
      refine ⟨by rw [heq], ?_⟩
      intro r' hr'
      rcases List.mem_cons.mp hr' with rfl | hr'
      · exact Finset.not_nonempty_iff_eq_empty.mp h
      · exact hall r' hr'

theorem mergePass_changed_length :
    ∀ (rows : List SeedRow) (g : Finset ℕ) (ns : Finset String) (cnt : ℕ),
      (mergePass g ns cnt rows).changed = true →
      (mergePass g ns cnt rows).remaining.length < rows.length := by
  intro rows
  induction rows with
  | nil => intro g ns cnt h; simp [mergePass] at h
  | cons r rest ih =>
    intro g ns cnt hch
    by_cases h : (g ∩ r.geom).Nonempty
    · simp only [mergePass, if_pos h]
      have := (mergePass_remaining_sublist rest (g ∪ r.geom) (insert r.name ns) (cnt + 1)).length_le
      simpa using Nat.lt_succ_of_le this
    · simp only [mergePass, if_neg h] at hch ⊢
      simpa using ih g ns cnt hch

theorem mergePass_geometry :
    ∀ (rows : List SeedRow) (g : Finset ℕ) (ns : Finset String) (cnt : ℕ),
      g ⊆ (mergePass g ns cnt rows).geometry ∧
      (mergePass g ns cnt rows).geometry ⊆ g ∪ unionGeoms rows := by
  intro rows
  induction rows with
  | nil => intro g ns cnt; exact ⟨Finset.Subset.refl g, by simp [mergePass]⟩
  | cons r rest ih =>
    intro g ns cnt
    by_cases h : (g ∩ r.geom).Nonempty
    · simp only [mergePass, if_pos h]
      obtain ⟨h1, h2⟩ := ih (g ∪ r.geom) (insert r.name ns) (cnt + 1)
      refine ⟨(Finset.subset_union_left).trans h1, h2.trans ?_⟩
      intro x hx
      rw [Finset.mem_union] at hx
      rcases hx with hx | hx
      · rw [Finset.mem_union] at hx
        rcases hx with hx | hx
        · exact Finset.mem_union_left _ hx
        · exact Finset.mem_union_right _ (mem_unionGeoms.mpr ⟨r, by simp, hx⟩)
      · rcases mem_unionGeoms.mp hx with ⟨r', hr', hx⟩
        exact Finset.mem_union_right _ (mem_unionGeoms.mpr ⟨r', by simp [hr'], hx⟩)
    · simp only [mergePass, if_neg h]
      obtain ⟨h1, h2⟩ := ih g ns cnt
      refine ⟨h1, h2.trans ?_⟩
      intro x hx
      rw [Finset.mem_union] at hx
      rcases hx with hx | hx
      · exact Finset.mem_union_left _ hx
      · rcases mem_unionGeoms.mp hx with ⟨r', hr', hx⟩
        exact Finset.mem_union_right _ (mem_unionGeoms.mpr ⟨r', by simp [hr'], hx⟩)

theorem mergePass_names :
    ∀ (rows : List SeedRow) (g : Finset ℕ) (ns : Finset String) (cnt : ℕ),
      ns ⊆ (mergePass g ns cnt rows).names := by
  intro rows
  induction rows with
  | nil => intro g ns cnt; exact Finset.Subset.refl ns
  | cons r rest ih =>
    intro g ns cnt
    by_cases h : (g ∩ r.geom).Nonempty
    · simp only [mergePass, if_pos h]
      exact (Finset.subset_insert r.name ns).trans (ih _ _ _)
    · simp only [mergePass, if_neg h]
      exact ih _ _ _

theorem mergeLoop_remaining_sublist :
    ∀ (fuel : ℕ) (g : Finset ℕ) (ns : Finset String) (cnt : ℕ) (rows : List SeedRow),
      List.Sublist (mergeLoop fuel g ns cnt rows).remaining rows := by
  intro fuel
  induction fuel with
  | zero => intro g ns cnt rows; exact List.Sublist.refl rows
  | succ fuel ih =>
    intro g ns cnt rows
    simp only [mergeLoop]
    by_cases h : (mergePass g ns cnt rows).changed = true
    · rw [if_pos h]
      exact (ih _ _ _ _).trans (mergePass_remaining_sublist rows g ns cnt)
    · rw [if_neg h]
      exact mergePass_remaining_sublist rows g ns cnt

theorem mergeLoop_geometry :
    ∀ (fuel : ℕ) (g : Finset ℕ) (ns : Finset String) (cnt : ℕ) (rows : List SeedRow),
      g ⊆ (mergeLoop fuel g ns cnt rows).geometry ∧
      (mergeLoop fuel g ns cnt rows).geometry ⊆ g ∪ unionGeoms rows := by
  intro fuel
  induction fuel with
  | zero => intro g ns cnt rows; exact ⟨Finset.Subset.refl g, Finset.subset_union_left⟩
  | succ fuel ih =>
    intro g ns cnt rows
    simp only [mergeLoop]
    obtain ⟨p1, p2⟩ := mergePass_geometry rows g ns cnt
    by_cases h : (mergePass g ns cnt rows).changed = true
    · rw [if_pos h]
      obtain ⟨q1, q2⟩ := ih (mergePass g ns cnt rows).geometry (mergePass g ns cnt rows).names
        (mergePass g ns cnt rows).absorbed (mergePass g ns cnt rows).remaining
      refine ⟨p1.trans q1, q2.trans ?_⟩
      intro x hx
      rw [Finset.mem_union] at hx
      rcases hx with hx | hx
      · exact p2 hx
      · rcases mem_unionGeoms.mp hx with ⟨r', hr', hx⟩
        have : r' ∈ rows := (mergePass_remaining_sublist rows g ns cnt).mem hr'
        exact Finset.mem_union_right _ (mem_unionGeoms.mpr ⟨r', this, hx⟩)
    · rw [if_neg h]
      exact ⟨p1, p2⟩

theorem mergeLoop_names :
    ∀ (fuel : ℕ) (g : Finset ℕ) (ns : Finset String) (cnt : ℕ) (rows : List SeedRow),
      ns ⊆ (mergeLoop fuel g ns cnt rows).names := by
  intro fuel
  induction fuel with
  | zero => intro g ns cnt rows; exact Finset.Subset.refl ns
  | succ fuel ih =>
    intro g ns cnt rows
    simp only [mergeLoop]
    by_cases h : (mergePass g ns cnt rows).changed = true
    · rw [if_pos h]
      exact (mergePass_names rows g ns cnt).trans (ih _ _ _ _)
    · rw [if_neg h]
      exact mergePass_names rows g ns cnt

theorem mergeLoop_fixpoint :
    ∀ (fuel : ℕ) (rows : List SeedRow) (g : Finset ℕ) (ns : Finset String) (cnt : ℕ),
      rows.length < fuel →
      ∀ r ∈ (mergeLoop fuel g ns cnt rows).remaining,
        (mergeLoop fuel g ns cnt rows).geometry ∩ r.geom = ∅ := by
  intro fuel
  induction fuel with
  | zero => intro rows g ns cnt h; omega
  | succ fuel ih =>
    intro rows g ns cnt hlen r hr
    simp only [mergeLoop] at hr ⊢
    by_cases h : (mergePass g ns cnt rows).changed = true
    · rw [if_pos h] at hr ⊢
      have hlt := mergePass_changed_length rows g ns cnt h
      exact ih _ _ _ _ (by omega) r hr
    · rw [if_neg h] at hr ⊢
      have h' : (mergePass g ns cnt rows).changed = false := by
        revert h; cases (mergePass g ns cnt rows).changed <;> simp
      obtain ⟨heq, hall⟩ := mergePass_not_changed rows g ns cnt h'
      rw [heq] at hr ⊢
      exact hall r hr

theorem mergeAll_geometry :
    ∀ (towns : List TownPt) (fuel : ℕ) (rows : List SeedRow),
      ∀ row ∈ mergeAll towns fuel rows, row.geometry ⊆ unionGeoms rows := by
  intro towns fuel
  induction fuel with
  | zero => intro rows row hrow; simp [mergeAll] at hrow
  | succ fuel ih =>
    intro rows row hrow
    match rows with
    | [] => simp [mergeAll] at hrow
    | r :: rest =>
      simp only [mergeAll, List.mem_cons] at hrow
      rcases hrow with rfl | hrow
      · exact (mergeLoop_geometry _ _ _ _ _).2.trans (by rw [unionGeoms_cons])
      · have hsub := mergeLoop_remaining_sublist (rest.length + 1) r.geom {r.name} 1 rest
        refine (ih _ row hrow).trans ?_
        intro x hx
        rcases mem_unionGeoms.mp hx with ⟨r', hr', hx⟩
        exact mem_unionGeoms.mpr ⟨r', by simp [hsub.mem hr'], hx⟩

theorem mergeAll_population :
    ∀ (towns : List TownPt) (fuel : ℕ) (rows : List SeedRow),
      ∀ row ∈ mergeAll towns fuel rows,
        row.population = popIn towns row.geometry ∧
        row.agglomeration_level = aggLevelOf row.population := by
  intro towns fuel
  induction fuel with
  | zero => intro rows row hrow; simp [mergeAll] at hrow
  | succ fuel ih =>
    intro rows row hrow
    match rows with
    | [] => simp [mergeAll] at hrow
    | r :: rest =>
      simp only [mergeAll, List.mem_cons] at hrow
      rcases hrow with rfl | hrow
      · exact ⟨rfl, rfl⟩
      · exact ih _ row hrow

theorem mergeAll_pairwise_disjoint (towns : List TownPt) :
    ∀ (fuel : ℕ) (rows : List SeedRow), rows.length ≤ fuel →
      (mergeAll towns fuel rows).Pairwise
        (fun r1 r2 => r1.geometry ∩ r2.geometry = ∅) := by
  intro fuel
  induction fuel with
  | zero => intro rows h
            have : rows = [] := List.length_eq_zero.mp (Nat.le_zero.mp h)
            subst this; simp [mergeAll]
  | succ fuel ih =>
    intro rows hlen
    match rows with
    | [] => simp [mergeAll]
    | r :: rest =>
      simp only [mergeAll]
      rw [List.pairwise_cons]
      have hsub := mergeLoop_remaining_sublist (rest.length + 1) r.geom {r.name} 1 rest
      constructor
      · intro row' hrow'
        have hg := mergeAll_geometry towns fuel _ row' hrow'
        have hfix := mergeLoop_fixpoint (rest.length + 1) rest r.geom {r.name} 1
          (Nat.lt_succ_self _)
        apply Finset.eq_empty_of_forall_not_mem
        intro x hx
        rw [Finset.mem_inter] at hx
        rcases mem_unionGeoms.mp (hg hx.2) with ⟨r', hr', hx'⟩
        have := hfix r' hr'
        have : x ∈ (mergeLoop (rest.length + 1) r.geom {r.name} 1 rest).geometry ∩ r'.geom :=
          Finset.mem_inter.mpr ⟨hx.1, hx'⟩
        rw [hfix r' hr'] at this
        exact absurd this (Finset.not_mem_empty x)
      · exact ih _ ((hsub.length_le).trans (Nat.succ_le_succ_iff.mp hlen))

theorem mergeLoop_nil (fuel : ℕ) (g : Finset ℕ) (ns : Finset String) (cnt : ℕ) :
    mergeLoop fuel g ns cnt [] = ⟨g, ns, cnt, [], false⟩ := by
  cases fuel with
  | zero => rfl
  | succ fuel => rfl

theorem mergeAll_nil (towns : List TownPt) (fuel : ℕ) :
    mergeAll towns fuel [] = [] := by
  cases fuel with
  | zero => rfl
  | succ fuel => rfl

theorem mergeAll_cons (towns : List TownPt) (fuel : ℕ) (r : SeedRow) (rest : List SeedRow) :
    mergeAll towns (fuel + 1) (r :: rest) =
      (let s := mergeLoop (rest.length + 1) r.geom {r.name} 1 rest
       ({ geometry := s.geometry,
          mtype := if 1 < s.absorbed then "Polycentric" else "Monocentric",
          core_cities := s.names,
          population := popIn towns s.geometry,
          agglomeration_level := aggLevelOf (popIn towns s.geometry) } : MergedRow)
        :: mergeAll towns fuel s.remaining) := rfl

theorem finalCorrection_eq (rows : List MergedRow) : finalCorrection rows = rows := by
  simp [finalCorrection]

theorem simplifyMultipolygons_eq (rows : List MergedRow) :
    simplifyMultipolygons rows = rows := by
  simp [simplifyMultipolygons]

/-- C3: the agglomeration merge phase reaches a transitive-closure fixed
point.  First part: no two rows of the merged output have intersecting
geometries.  Second part: three seeds `A`, `B`, `C` with `A ∩ B ≠ ∅`,
`B ∩ C ≠ ∅`, `A ∩ C = ∅` merge into exactly one agglomeration covering
`A ∪ B ∪ C` whose `core_cities` contains all three anchor names (and which
is marked `Polycentric`). -/
theorem merge_transitive_closure_fixed_point :
    (∀ (towns : List TownPt) (rows : List SeedRow),
      (mergeAgglomerations towns rows).Pairwise
        (fun r1 r2 => r1.geometry ∩ r2.geometry = ∅)) ∧
    (∀ (towns : List TownPt) (na nb nc : String) (A B C : Finset ℕ),
      (A ∩ B).Nonempty → (B ∩ C).Nonempty → A ∩ C = ∅ →
      ∃ row, mergeAgglomerations towns [⟨na, A⟩, ⟨nb, B⟩, ⟨nc, C⟩] = [row] ∧
        row.geometry = A ∪ B ∪ C ∧ na ∈ row.core_cities ∧ nb ∈ row.core_cities ∧
        nc ∈ row.core_cities ∧ row.mtype = "Polycentric") := by
  constructor
  · intro towns rows
    exact mergeAll_pairwise_disjoint towns rows.length rows (Nat.le_refl _)
  · intro towns na nb nc A B C hab hbc _
    have hbc' : ((A ∪ B) ∩ C).Nonempty :=
      hbc.mono (Finset.inter_subset_inter Finset.subset_union_right (Finset.Subset.refl C))
    have h1 : mergePass A {na} 1 [⟨nb, B⟩, ⟨nc, C⟩] =
        ⟨A ∪ B ∪ C, insert nc (insert nb {na}), 3, [], true⟩ := by
      simp [mergePass, hab, hbc', Finset.union_assoc]
    have h2 : mergeLoop ([(⟨nb, B⟩ : SeedRow), ⟨nc, C⟩].length + 1) A {na} 1
        [⟨nb, B⟩, ⟨nc, C⟩] =
        ⟨A ∪ B ∪ C, insert nc (insert nb {na}), 3, [], false⟩ := by
      show (let s := mergePass A {na} 1 [⟨nb, B⟩, ⟨nc, C⟩];
        if s.changed then
          mergeLoop [(⟨nb, B⟩ : SeedRow), ⟨nc, C⟩].length s.geometry s.names s.absorbed
            s.remaining
        else s) = _
      rw [h1]
      exact mergeLoop_nil _ _ _ _
    refine ⟨⟨A ∪ B ∪ C, "Polycentric", insert nc (insert nb {na}),
      popIn towns (A ∪ B ∪ C), aggLevelOf (popIn towns (A ∪ B ∪ C))⟩, ?_,
      rfl, by simp, by simp, by simp, rfl⟩
    simp only [mergeAgglomerations]
    rw [show ([(⟨na, A⟩ : SeedRow), ⟨nb, B⟩, ⟨nc, C⟩].length) = 2 + 1 from rfl,
      mergeAll_cons]
    dsimp only
    rw [h2]
    simp [mergeAll_nil]

/-- Witness for the second part of C3 at concrete seeds
`A = {0, 1}`, `B = {1, 2}`, `C = {2, 3}`. -/
theorem merge_transitive_closure_fixed_point_witness :
    ∃ row, mergeAgglomerations [] [⟨"a", {0, 1}⟩, ⟨"b", {1, 2}⟩, ⟨"c", {2, 3}⟩] = [row] ∧
      row.geometry = {0, 1} ∪ {1, 2} ∪ {2, 3} ∧ "a" ∈ row.core_cities ∧
      "b" ∈ row.core_cities ∧ "c" ∈ row.core_cities ∧ row.mtype = "Polycentric" :=
  merge_transitive_closure_fixed_point.2 [] "a" "b" "c" {0, 1} {1, 2} {2, 3}
    (by decide) (by decide) (by decide)

/-- C4 counterexample: a town (point `2`, population `300000`) inside the
merged geometry but outside the region boundary is counted into the
published population, so the population of the returned row is not the sum
over the settlements inside the row's final (clipped) geometry, and the
level does not match that sum either. -/
theorem get_agglomerations_population_counterexample :
    ¬ (∀ r ∈ get_agglomerations
          [⟨"T0", 100000, 0⟩, ⟨"T2", 300000, 2⟩] [⟨"T2", {0, 2}⟩] {0, 1},
        r.population = popIn [⟨"T0", 100000, 0⟩, ⟨"T2", 300000, 2⟩] r.geometry ∧
        r.agglomeration_level =
          aggLevelOf (popIn [⟨"T0", 100000, 0⟩, ⟨"T2", 300000, 2⟩] r.geometry)) := by
  decide

/-- C4 (amended): the population of every row returned by
`get_agglomerations` is the sum of the populations of the settlements
whose point lies in the row's *merged, pre-clipping* geometry (the output
of `_merge_intersecting_agglomerations`), not in the final clipped
geometry; the `agglomeration_level` ladder (1,2,3,4,5 for ≤250000,
≤500000, ≤1000000, ≤5000000, else) is applied to that same pre-clipping
population. -/
theorem get_agglomerations_population_preclip (towns : List TownPt)
    (seeds : List SeedRow) (region : Finset ℕ) :
    ∀ r ∈ get_agglomerations towns seeds region,
      ∃ m ∈ mergeAgglomerations towns (simplifySeedPolygons seeds),
        r.geometry = m.geometry ∩ region ∧
        r.population = m.population ∧
        m.population = popIn towns m.geometry ∧
        r.agglomeration_level = aggLevelOf m.population := by
  intro r hr
  rw [get_agglomerations, finalCorrection_eq, simplifyMultipolygons_eq] at hr
  simp only [overlayIntersection, List.mem_filterMap] at hr
  obtain ⟨m, hm, hsome⟩ := hr
  by_cases hne : (m.geometry ∩ region).Nonempty
  · rw [if_pos hne] at hsome
    obtain ⟨hpop, hlvl⟩ := mergeAll_population towns _ _ m hm
    obtain rfl : ({ m with geometry := m.geometry ∩ region } : MergedRow) = r :=
      Option.some.inj hsome
    exact ⟨m, hm, rfl, rfl, hpop, hlvl⟩
  · rw [if_neg hne] at hsome
    exact absurd hsome (by simp)

/-- Witness for the amended C4 on the concrete input of the
counterexample. -/
theorem get_agglomerations_population_preclip_witness :
    ∃ m ∈ mergeAgglomerations [⟨"T0", 100000, 0⟩, ⟨"T2", 300000, 2⟩]
        (simplifySeedPolygons [⟨"T2", {0, 2}⟩]),
      (⟨{0}, "Monocentric", {"T2"}, 400000, 2⟩ : MergedRow).geometry = m.geometry ∩ {0, 1} ∧
      (⟨{0}, "Monocentric", {"T2"}, 400000, 2⟩ : MergedRow).population = m.population ∧
      m.population = popIn [⟨"T0", 100000, 0⟩, ⟨"T2", 300000, 2⟩] m.geometry ∧
      (⟨{0}, "Monocentric", {"T2"}, 400000, 2⟩ : MergedRow).agglomeration_level =
        aggLevelOf m.population :=
  get_agglomerations_population_preclip
    [⟨"T0", 100000, 0⟩, ⟨"T2", 300000, 2⟩] [⟨"T2", {0, 2}⟩] {0, 1}
    ⟨{0}, "Monocentric", {"T2"}, 400000, 2⟩ (by decide)

/-- C7: the final geometry-correction step of `get_agglomerations` does
the opposite of the claim: it rebuilds *valid* geometries from their
exterior ring, keeps an *invalid* geometry unchanged, and never drops a
row.  First conjunct: an invalid geometry passes through untouched (still
invalid, still present).  Second: no row is ever dropped.  Third: it is
the valid geometries that get rebuilt. -/
theorem final_correction_keeps_invalid :
    finalGeometryCorrection [⟨{0}, false⟩] = [⟨{0}, false⟩] ∧
    (∀ rows : List PGeom, (finalGeometryCorrection rows).length = rows.length) ∧
    (∀ g : PGeom, g.valid = true → finalGeometryCorrection [g] = [polygonOfExterior g]) := by
  refine ⟨rfl, fun rows => List.length_map rows _, fun g hg => ?_⟩
  simp [finalGeometryCorrection, hg]

/-- Witness for C7's third conjunct at a concrete valid geometry. -/
theorem final_correction_keeps_invalid_witness :
    finalGeometryCorrection [⟨{2}, true⟩] = [polygonOfExterior ⟨{2}, true⟩] :=
  final_correction_keeps_invalid.2.2 ⟨{2}, true⟩ rfl

/-! ## Theorems on the sorting helper -/

theorem insertLe_perm {α : Type} (le : α → α → Bool) (a : α) :
    ∀ l : List α, (insertLe le a l).Perm (a :: l) := by
  intro l
  induction l with
  | nil => exact List.Perm.refl _
  | cons b bs ih =>
    by_cases h : le a b = true
    · simp [insertLe, h]
    · have e : insertLe le a (b :: bs) = b :: insertLe le a bs := by
        simp [insertLe, h]
      rw [e]
      exact (ih.cons b).trans (List.Perm.swap a b bs)

theorem sortLe_perm {α : Type} (le : α → α → Bool) :
    ∀ l : List α, (sortLe le l).Perm l := by
  intro l
  induction l with
  | nil => exact List.Perm.refl _
  | cons a as ih => exact (insertLe_perm le a (sortLe le as)).trans (ih.cons a)

theorem mem_sortLe {α : Type} {le : α → α → Bool} {x : α} {l : List α} :
    x ∈ sortLe le l ↔ x ∈ l :=
  (sortLe_perm le l).mem_iff

/-! ## Theorems on the build phase (C8) -/

theorem popOf_eq :
    ∀ (towns : List BTown), (towns.map BTown.id).Nodup →
      ∀ t ∈ towns, popOf towns t.id = t.population := by
  intro towns
  induction towns with
  | nil => intro _ t ht; cases ht
  | cons h rest ih =>
    intro hnd t ht
    rw [List.map_cons, List.nodup_cons] at hnd
    rcases List.mem_cons.mp ht with rfl | ht'
    · simp [popOf]
    · by_cases he : h.id = t.id
      · exact absurd (he ▸ List.mem_map.mpr ⟨t, ht', rfl⟩) hnd.1
      · have hbe : (h.id == t.id) = false := by simpa using he
        have e : popOf (h :: rest) t.id = popOf rest t.id := by
          simp [popOf, List.find?, hbe]
        rw [e]
        exact ih hnd.2 t ht'

theorem buildStep_congr (m : ℕ → ℕ → ℤ) (towns : List BTown)
    (hnd : (towns.map BTown.id).Nodup) (mt : ℤ) :
    ∀ (nodes : List BTown), (∀ t ∈ nodes, t ∈ towns) →
    ∀ st1 st2 : List SeedAgg × Finset ℕ, st1.1 = st2.1 →
    (∀ n ∈ st1.2, popOf towns n < MIN_POPULATION) →
    (∀ n ∈ st2.2, popOf towns n < MIN_POPULATION) →
    (nodes.foldl (buildStep m towns mt) st1).1 =
        (nodes.foldl (buildStep m towns mt) st2).1 ∧
    (∀ n ∈ (nodes.foldl (buildStep m towns mt) st1).2,
        popOf towns n < MIN_POPULATION) ∧
    (∀ n ∈ (nodes.foldl (buildStep m towns mt) st2).2,
        popOf towns n < MIN_POPULATION) := by
  intro nodes
  induction nodes with
  | nil => intro _ st1 st2 h1 h2 h3; exact ⟨h1, h2, h3⟩
  | cons t ts ih =>
    intro hmem st1 st2 heq hlow1 hlow2
    simp only [List.foldl_cons]
    have ht : t ∈ towns := hmem t (by simp)
    have hts : ∀ u ∈ ts, u ∈ towns := fun u hu => hmem u (by simp [hu])
    have hp := popOf_eq towns hnd t ht
    by_cases hskip : t.population < MIN_POPULATION
    · have e1 : buildStep m towns mt st1 t = st1 := by
        simp [buildStep, hskip]
      have e2 : buildStep m towns mt st2 t = st2 := by
        simp [buildStep, hskip]
      rw [e1, e2]
      exact ih hts st1 st2 heq hlow1 hlow2
    · have h1n : t.id ∉ st1.2 := fun hin => hskip (hp ▸ hlow1 t.id hin)
      have h2n : t.id ∉ st2.2 := fun hin => hskip (hp ▸ hlow2 t.id hin)
      cases hagg : getAgglomerationAroundNode m towns t.id mt with
      | none =>
        have e1 : buildStep m towns mt st1 t = st1 := by
          simp [buildStep, h1n, hskip, hagg]
        have e2 : buildStep m towns mt st2 t = st2 := by
          simp [buildStep, h2n, hskip, hagg]
        rw [e1, e2]
        exact ih hts st1 st2 heq hlow1 hlow2
      | some agg =>
        have hS : ∀ n ∈ (agg.members.filter
            (fun n => decide (popOf towns n < MIN_POPULATION))).toFinset,
            popOf towns n < MIN_POPULATION := by
          intro n hn
          rw [List.mem_toFinset, List.mem_filter] at hn
          exact of_decide_eq_true hn.2
        have e1 : buildStep m towns mt st1 t =
            (st1.1 ++ [{ agg with name := nameOf towns t.id }],
             st1.2 ∪ (agg.members.filter
               (fun n => decide (popOf towns n < MIN_POPULATION))).toFinset) := by
          simp [buildStep, h1n, hskip, hagg]
        have e2 : buildStep m towns mt st2 t =
            (st2.1 ++ [{ agg with name := nameOf towns t.id }],
             st2.2 ∪ (agg.members.filter
               (fun n => decide (popOf towns n < MIN_POPULATION))).toFinset) := by
          simp [buildStep, h2n, hskip, hagg]
        rw [e1, e2]
        apply ih hts
        · simp [heq]
        · intro n hn
          rcases Finset.mem_union.mp hn with hn | hn
          · exact hlow1 n hn
          · exact hS n hn
        · intro n hn
          rcases Finset.mem_union.mp hn with hn | hn
          · exact hlow2 n hn
          · exact hS n hn

theorem buildLevels_congr (m : ℕ → ℕ → ℤ) (towns : List BTown)
    (hnd : (towns.map BTown.id).Nodup) :
    ∀ (lvls : List (ℤ × List BTown)), (∀ p ∈ lvls, ∀ t ∈ p.2, t ∈ towns) →
    ∀ st1 st2 : List SeedAgg × Finset ℕ, st1.1 = st2.1 →
    (∀ n ∈ st1.2, popOf towns n < MIN_POPULATION) →
    (∀ n ∈ st2.2, popOf towns n < MIN_POPULATION) →
    (lvls.foldl (fun st lvl => lvl.2.foldl (buildStep m towns lvl.1) st) st1).1 =
      (lvls.foldl (fun st lvl => lvl.2.foldl (buildStep m towns lvl.1) st) st2).1 ∧
    (∀ n ∈ (lvls.foldl (fun st lvl => lvl.2.foldl (buildStep m towns lvl.1) st) st1).2,
      popOf towns n < MIN_POPULATION) ∧
    (∀ n ∈ (lvls.foldl (fun st lvl => lvl.2.foldl (buildStep m towns lvl.1) st) st2).2,
      popOf towns n < MIN_POPULATION) := by
  intro lvls
  induction lvls with
  | nil => intro _ st1 st2 h1 h2 h3; exact ⟨h1, h2, h3⟩
  | cons lvl rest ih =>
    intro hmem st1 st2 heq hlow1 hlow2
    simp only [List.foldl_cons]
    obtain ⟨g1, g2, g3⟩ := buildStep_congr m towns hnd lvl.1 lvl.2
      (hmem lvl (by simp)) st1 st2 heq hlow1 hlow2
    exact ih (fun p hp => hmem p (by simp [hp])) _ _ g1 g2 g3

theorem levelSeeds_mem (towns : List BTown) :
    ∀ p ∈ levelSeeds towns, ∀ t ∈ p.2, t ∈ towns := by
  intro p hp t ht
  simp only [levelSeeds, List.mem_map] at hp
  obtain ⟨q, _, rfl⟩ := hp
  simp only [sortByPopDesc] at ht
  exact (List.mem_filter.mp (mem_sortLe.mp ht)).1

/-- C8 counterexample: the module-level `IN_AGGLOMERATION` registry is a
process-wide variable and `_build_agglomeration` mutates it — after one
call on a two-town table (anchor of population 20000 capturing a
population-1000 neighbour) the registry is no longer empty, contradicting
"mutates neither its inputs nor any process-wide variable". -/
theorem build_agglomeration_mutates_registry :
    (1 : ℕ) ∈ (build_agglomeration (fun i j => if i = j then 0 else 10)
      [⟨0, "S", 20000, "Малый город", 0⟩, ⟨1, "v", 1000, "Малое сельское поселение", 1⟩]
      ∅).2 ∧ (1 : ℕ) ∉ (∅ : Finset ℕ) := by
  constructor
  · decide
  · decide

/-- C8 (amended): `_build_agglomeration` mutates the process-wide
`IN_AGGLOMERATION` registry, which is never cleared between calls; but
every id it ever registers belongs to a settlement with population below
`MIN_POPULATION`, which the population check skips anyway, so a second
invocation of the builder on the same towns table and accessibility
matrix — starting from the registry state the first call left behind —
returns the same agglomeration list as the first invocation. -/
theorem build_agglomeration_second_call (m : ℕ → ℕ → ℤ) (towns : List BTown)
    (hnd : (towns.map BTown.id).Nodup) :
    (build_agglomeration m towns (build_agglomeration m towns ∅).2).1 =
      (build_agglomeration m towns ∅).1 ∧
    ∀ n ∈ (build_agglomeration m towns ∅).2, popOf towns n < MIN_POPULATION := by
  have hmem := levelSeeds_mem towns
  have h1 := buildLevels_congr m towns hnd (levelSeeds towns) hmem ([], ∅) ([], ∅)
    rfl (by simp) (by simp)
  have hlow : ∀ n ∈ (build_agglomeration m towns ∅).2,
      popOf towns n < MIN_POPULATION := h1.2.1
  have h2 := buildLevels_congr m towns hnd (levelSeeds towns) hmem
    ([], (build_agglomeration m towns ∅).2) ([], ∅) rfl hlow (by simp)
  exact ⟨h2.1, hlow⟩

/-- Witness for the amended C8 on the counterexample's two-town table. -/
theorem build_agglomeration_second_call_witness :
    (build_agglomeration (fun i j => if i = j then 0 else 10)
        [⟨0, "S", 20000, "Малый город", 0⟩, ⟨1, "v", 1000, "Малое сельское поселение", 1⟩]
        (build_agglomeration (fun i j => if i = j then 0 else 10)
          [⟨0, "S", 20000, "Малый город", 0⟩, ⟨1, "v", 1000, "Малое сельское поселение", 1⟩]
          ∅).2).1 =
      (build_agglomeration (fun i j => if i = j then 0 else 10)
        [⟨0, "S", 20000, "Малый город", 0⟩, ⟨1, "v", 1000, "Малое сельское поселение", 1⟩]
        ∅).1 ∧
    ∀ n ∈ (build_agglomeration (fun i j => if i = j then 0 else 10)
        [⟨0, "S", 20000, "Малый город", 0⟩, ⟨1, "v", 1000, "Малое сельское поселение", 1⟩]
        ∅).2, popOf [⟨0, "S", 20000, "Малый город", 0⟩,
          ⟨1, "v", 1000, "Малое сельское поселение", 1⟩] n < MIN_POPULATION :=
  build_agglomeration_second_call (fun i j => if i = j then 0 else 10)
    [⟨0, "S", 20000, "Малый город", 0⟩, ⟨1, "v", 1000, "Малое сельское поселение", 1⟩]
    (by decide)

/-! ## Theorems on the membership classification (C10) -/

theorem statusLoop_spec (pt : ℕ) (nm : String) :
    ∀ (aggs : List AggRow) (inAgg : Bool) (cur : ℕ),
      ((∀ a ∈ aggs, pt ∉ a.geometry) ∧
        statusLoop pt nm aggs inAgg cur = (inAgg, false, cur)) ∨
      ((statusLoop pt nm aggs inAgg cur).1 = true ∧
        ∃ a ∈ aggs, pt ∈ a.geometry ∧
          (statusLoop pt nm aggs inAgg cur).2.2 = a.agglomeration_level) := by
  intro aggs
  induction aggs with
  | nil => intro inAgg cur; exact Or.inl ⟨by simp, rfl⟩
  | cons a rest ih =>
    intro inAgg cur
    by_cases hmem : pt ∈ a.geometry
    · by_cases hcore : nm ∈ a.core_cities
      · have e : statusLoop pt nm (a :: rest) inAgg cur =
            (true, true, a.agglomeration_level) := by
          simp [statusLoop, hmem, hcore]
        rw [e]
        exact Or.inr ⟨rfl, a, by simp, hmem, rfl⟩
      · have e : statusLoop pt nm (a :: rest) inAgg cur =
            statusLoop pt nm rest true a.agglomeration_level := by
          simp [statusLoop, hmem, hcore]
        rw [e]
        rcases ih true a.agglomeration_level with ⟨_, heq⟩ | ⟨h1, b, hb, hbm, hlvl⟩
        · rw [heq]
          exact Or.inr ⟨rfl, a, by simp, hmem, rfl⟩
        · exact Or.inr ⟨h1, b, by simp [hb], hbm, hlvl⟩
    · have e : statusLoop pt nm (a :: rest) inAgg cur =
          statusLoop pt nm rest inAgg cur := by
        simp [statusLoop, hmem]
      rw [e]
      rcases ih inAgg cur with ⟨hall, heq⟩ | ⟨h1, b, hb, hbm, hlvl⟩
      · refine Or.inl ⟨?_, heq⟩
        intro a' ha'
        rcases List.mem_cons.mp ha' with rfl | ha'
        · exact hmem
        · exact hall a' ha'
      · exact Or.inr ⟨h1, b, by simp [hb], hbm, hlvl⟩

/-- C10: in the towns table returned by
`evaluate_city_agglomeration_status` (modelled per town by
`evaluateStatus`), provided every agglomeration row carries a level
between 1 and 5 (as `get_agglomerations` produces): a town's
`agglomeration_level` is 0 iff its `agglomeration_status` is
`"Вне агломерации"`, and a town whose point intersects at least one
agglomeration polygon gets status `"Центр агломерации"` or
`"В агломерации"` together with the level (between 1 and 5) of one of the
agglomerations containing it. -/
theorem evaluate_status_iff (aggs : List AggRow) (pt : ℕ) (nm : String)
    (hl : ∀ a ∈ aggs, 1 ≤ a.agglomeration_level ∧ a.agglomeration_level ≤ 5) :
    ((evaluateStatus aggs pt nm).2 = 0 ↔
      (evaluateStatus aggs pt nm).1 = "Вне агломерации") ∧
    ((∃ a ∈ aggs, pt ∈ a.geometry) →
      ((evaluateStatus aggs pt nm).1 = "Центр агломерации" ∨
        (evaluateStatus aggs pt nm).1 = "В агломерации") ∧
      ∃ a ∈ aggs, pt ∈ a.geometry ∧
        (evaluateStatus aggs pt nm).2 = a.agglomeration_level ∧
        1 ≤ a.agglomeration_level ∧ a.agglomeration_level ≤ 5) := by
  rcases statusLoop_spec pt nm aggs false 0 with ⟨hall, heq⟩ | ⟨h1, b, hb, hbm, hlvl⟩
  · have e : evaluateStatus aggs pt nm = ("Вне агломерации", 0) := by
      simp [evaluateStatus, heq]
    rw [e]
    refine ⟨by simp, ?_⟩
    rintro ⟨a, ha, hpt⟩
    exact absurd hpt (hall a ha)
  · have hbl := hl b hb
    cases hco : (statusLoop pt nm aggs false 0).2.1 with
    | true =>
      have e : evaluateStatus aggs pt nm =
          ("Центр агломерации", (statusLoop pt nm aggs false 0).2.2) := by
        simp [evaluateStatus, hco]
      rw [e]
      dsimp only
      constructor
      · constructor
        · intro h0
          rw [hlvl] at h0
          exact absurd h0 (by omega)
        · intro hs
          exact absurd hs (by decide)
      · intro _
        exact ⟨Or.inl rfl, b, hb, hbm, hlvl, hbl.1, hbl.2⟩
    | false =>
      have e : evaluateStatus aggs pt nm =
          ("В агломерации", (statusLoop pt nm aggs false 0).2.2) := by
        simp [evaluateStatus, hco, h1]
      rw [e]
      dsimp only
      constructor
      · constructor
        · intro h0
          rw [hlvl] at h0
          exact absurd h0 (by omega)
        · intro hs
          exact absurd hs (by decide)
      · intro _
        exact ⟨Or.inr rfl, b, hb, hbm, hlvl, hbl.1, hbl.2⟩

/-- Witness for C10 on a one-agglomeration table containing the town's
point. -/
theorem evaluate_status_iff_witness :
    ((evaluateStatus [⟨{5}, 3, {"X"}⟩] 5 "X").2 = 0 ↔
      (evaluateStatus [⟨{5}, 3, {"X"}⟩] 5 "X").1 = "Вне агломерации") ∧
    ((∃ a ∈ [(⟨{5}, 3, {"X"}⟩ : AggRow)], 5 ∈ a.geometry) →
      ((evaluateStatus [⟨{5}, 3, {"X"}⟩] 5 "X").1 = "Центр агломерации" ∨
        (evaluateStatus [⟨{5}, 3, {"X"}⟩] 5 "X").1 = "В агломерации") ∧
      ∃ a ∈ [(⟨{5}, 3, {"X"}⟩ : AggRow)], 5 ∈ a.geometry ∧
        (evaluateStatus [⟨{5}, 3, {"X"}⟩] 5 "X").2 = a.agglomeration_level ∧
        1 ≤ a.agglomeration_level ∧ a.agglomeration_level ≤ 5) :=
  evaluate_status_iff [⟨{5}, 3, {"X"}⟩] 5 "X" (by decide)

/-! ## Theorems on the network builder -/

theorem edgePair_symm {es : List Edge} {a b : ℕ} (h : edgePair es a b) :
    edgePair es b a := by
  rcases h with ⟨e, he, ⟨h1, h2⟩ | ⟨h1, h2⟩⟩
  · exact ⟨e, he, Or.inr ⟨h1, h2⟩⟩
  · exact ⟨e, he, Or.inl ⟨h1, h2⟩⟩

theorem conn_single {es : List Edge} {a b : ℕ} (h : edgePair es a b) :
    Conn es a b :=
  (Conn.refl a).tail h

theorem conn_trans {es : List Edge} {a b c : ℕ} (h1 : Conn es a b)
    (h2 : Conn es b c) : Conn es a c := by
  induction h2 with
  | refl => exact h1
  | tail _ hp ih => exact ih.tail hp

theorem conn_symm {es : List Edge} {a b : ℕ} (h : Conn es a b) :
    Conn es b a := by
  induction h with
  | refl => exact Conn.refl _
  | tail _ hp ih => exact conn_trans (conn_single (edgePair_symm hp)) ih

theorem connP_lift {ps : List (ℕ × ℕ)} {es : List Edge}
    (h : ∀ a b, pairIn ps a b → edgePair es a b) {x y : ℕ}
    (hc : ConnP ps x y) : Conn es x y := by
  induction hc with
  | refl => exact Conn.refl _
  | tail _ hp ih => exact ih.tail (h _ _ hp)

theorem connP_mono {ps ps' : List (ℕ × ℕ)}
    (h : ∀ a b, pairIn ps a b → pairIn ps' a b) {x y : ℕ}
    (hc : ConnP ps x y) : ConnP ps' x y := by
  induction hc with
  | refl => exact ConnP.refl _
  | tail _ hp ih => exact ih.tail (h _ _ hp)

theorem pairIn_append_left {ps l : List (ℕ × ℕ)} {a b : ℕ}
    (h : pairIn ps a b) : pairIn (ps ++ l) a b := by
  rcases h with h | h
  · exact Or.inl (List.mem_append.mpr (Or.inl h))
  · exact Or.inr (List.mem_append.mpr (Or.inl h))

theorem hasEdge_iff {es : List Edge} {a b : ℕ} :
    hasEdge es a b = true ↔ edgePair es a b := by
  simp [hasEdge, edgePair, List.any_eq_true]

theorem hasEdge_append {es l : List Edge} {a b : ℕ}
    (h : hasEdge es a b = true) : hasEdge (es ++ l) a b = true := by
  simp only [hasEdge, List.any_append, Bool.or_eq_true]
  exact Or.inl h

theorem hasEdge_append_new (es : List Edge) (u v : ℕ) (lvl : String)
    (t : Option ℤ) : hasEdge (es ++ [⟨u, v, lvl, t⟩]) u v = true := by
  simp [hasEdge, List.any_append]

theorem hasEdge_addEdge_mono {es : List Edge} {u v a b : ℕ} {lvl : String}
    (h : hasEdge es a b = true) : hasEdge (addEdge es u v lvl) a b = true := by
  unfold addEdge
  by_cases hc : hasEdge es u v
  · rw [if_pos hc]
    simp only [hasEdge, List.any_eq_true] at h ⊢
    obtain ⟨e, he, hm⟩ := h
    exact ⟨_, List.mem_map.mpr ⟨e, he, rfl⟩, by split <;> simpa using hm⟩
  · rw [if_neg hc]
    exact hasEdge_append h

theorem hasEdge_addEdge_self (es : List Edge) (u v : ℕ) (lvl : String) :
    hasEdge (addEdge es u v lvl) u v = true := by
  unfold addEdge
  by_cases hc : hasEdge es u v
  · rw [if_pos hc]
    simp only [hasEdge, List.any_eq_true] at hc ⊢
    obtain ⟨e, he, hm⟩ := hc
    exact ⟨_, List.mem_map.mpr ⟨e, he, rfl⟩, by split <;> simpa using hm⟩
  · rw [if_neg hc]
    exact hasEdge_append_new es u v lvl none

theorem foldl_choice_mem {α : Type} (g : α → α → α)
    (hg : ∀ b c, g b c = b ∨ g b c = c) :
    ∀ (l : List α) (init : α), l.foldl g init = init ∨ l.foldl g init ∈ l := by
  intro l
  induction l with
  | nil => intro init; exact Or.inl rfl
  | cons c cs ih =>
    intro init
    rw [List.foldl_cons]
    rcases ih (g init c) with h | h
    · rw [h]
      rcases hg init c with h2 | h2
      · exact Or.inl h2
      · exact Or.inr (by rw [h2]; exact List.mem_cons_self c cs)
    · exact Or.inr (List.mem_cons.mpr (Or.inr h))

theorem idxmin_mem (m : ℕ → ℕ → ℤ) (src : ℕ) :
    ∀ (l : List ℕ) (j : ℕ), idxmin m src l = some j → j ∈ l := by
  intro l j h
  cases l with
  | nil => cases h
  | cons t ts =>
    simp only [idxmin, Option.some.injEq] at h
    subst h
    rcases foldl_choice_mem (fun best c => if m src c < m src best then c else best)
      (fun b c => by
        dsimp only
        split
        · exact Or.inr rfl
        · exact Or.inl rfl) ts t with h | h
    · rw [h]; exact List.mem_cons_self t ts
    · exact List.mem_cons.mpr (Or.inr h)

theorem idxmin_isSome (m : ℕ → ℕ → ℤ) (src : ℕ) (l : List ℕ) (hne : l ≠ []) :
    ∃ j, idxmin m src l = some j := by
  cases l with
  | nil => exact absurd rfl hne
  | cons t ts => exact ⟨_, rfl⟩

theorem euclidMin_mem (towns : List Town) (src : ℕ) :
    ∀ (l : List ℕ) (j : ℕ), euclidMin towns src l = some j → j ∈ l := by
  intro l j h
  cases l with
  | nil => cases h
  | cons t ts =>
    simp only [euclidMin, Option.some.injEq] at h
    subst h
    rcases foldl_choice_mem
      (fun best c => if sqDist (posOf towns src) (posOf towns c) <
          sqDist (posOf towns src) (posOf towns best) then c else best)
      (fun b c => by
        dsimp only
        split
        · exact Or.inr rfl
        · exact Or.inl rfl) ts t with h | h
    · rw [h]; exact List.mem_cons_self t ts
    · exact List.mem_cons.mpr (Or.inr h)

theorem euclidMin_isSome (towns : List Town) (src : ℕ) (l : List ℕ)
    (hne : l ≠ []) : ∃ j, euclidMin towns src l = some j := by
  cases l with
  | nil => exact absurd rfl hne
  | cons t ts => exact ⟨_, rfl⟩

theorem connectPass1_hasEdge_mono (m : ℕ → ℕ → ℤ) (fl : String) (toT : List ℕ) :
    ∀ (l : List ℕ) (st : List Edge × List ℕ) (a b : ℕ),
      hasEdge st.1 a b = true →
      hasEdge (connectPass1 m fl toT l st).1 a b = true := by
  intro l
  induction l with
  | nil => intro st a b h; exact h
  | cons i rest ih =>
    intro st a b h
    simp only [connectPass1]
    cases hmin : idxmin m i toT with
    | none => exact ih st a b h
    | some nearest =>
      dsimp only
      by_cases hcond : nearest ≠ 0 ∧ hasEdge st.1 i nearest = false
      · rw [if_pos hcond]
        exact ih _ a b (hasEdge_append h)
      · rw [if_neg hcond]
        exact ih _ a b h

theorem connectPass1_unc_mono (m : ℕ → ℕ → ℤ) (fl : String) (toT : List ℕ) :
    ∀ (l : List ℕ) (st : List Edge × List ℕ) (x : ℕ),
      x ∈ st.2 → x ∈ (connectPass1 m fl toT l st).2 := by
  intro l
  induction l with
  | nil => intro st x h; exact h
  | cons i rest ih =>
    intro st x h
    simp only [connectPass1]
    cases hmin : idxmin m i toT with
    | none => exact ih st x h
    | some nearest =>
      dsimp only
      by_cases hcond : nearest ≠ 0 ∧ hasEdge st.1 i nearest = false
      · rw [if_pos hcond]
        exact ih _ x h
      · rw [if_neg hcond]
        exact ih _ x (by simp [h])

theorem connectPass1_covers (m : ℕ → ℕ → ℤ) (fl : String) (toT : List ℕ)
    (hne : toT ≠ []) :
    ∀ (l : List ℕ) (st : List Edge × List ℕ), ∀ i ∈ l,
      (∃ j ∈ toT, hasEdge (connectPass1 m fl toT l st).1 i j = true) ∨
      i ∈ (connectPass1 m fl toT l st).2 := by
  intro l
  induction l with
  | nil => intro st i hi; cases hi
  | cons i0 rest ih =>
    intro st i hi
    rcases List.mem_cons.mp hi with rfl | hi'
    · obtain ⟨j, hj⟩ := idxmin_isSome m i toT hne
      have hjm := idxmin_mem m i toT j hj
      simp only [connectPass1]
      rw [hj]
      dsimp only
      by_cases hcond : j ≠ 0 ∧ hasEdge st.1 i j = false
      · rw [if_pos hcond]
        exact Or.inl ⟨j, hjm, connectPass1_hasEdge_mono m fl toT rest _ i j
          (hasEdge_append_new st.1 i j fl none)⟩
      · rw [if_neg hcond]
        exact Or.inr (connectPass1_unc_mono m fl toT rest _ i (by simp))
    · simp only [connectPass1]
      cases hmin : idxmin m i0 toT with
      | none => exact ih st i hi'
      | some nearest =>
        dsimp only
        by_cases hcond : nearest ≠ 0 ∧ hasEdge st.1 i0 nearest = false
        · rw [if_pos hcond]
          exact ih _ i hi'
        · rw [if_neg hcond]
          exact ih _ i hi'

theorem connectPass2_hasEdge_mono (towns : List Town) (fl : String)
    (toT : List ℕ) :
    ∀ (l : List ℕ) (es : List Edge) (a b : ℕ), hasEdge es a b = true →
      hasEdge (connectPass2 towns fl toT l es) a b = true := by
  intro l
  induction l with
  | nil => intro es a b h; exact h
  | cons i rest ih =>
    intro es a b h
    simp only [connectPass2]
    cases hmin : euclidMin towns i toT with
    | none => exact ih es a b h
    | some nearest => exact ih _ a b (hasEdge_addEdge_mono h)

theorem connectPass2_covers (towns : List Town) (fl : String) (toT : List ℕ)
    (hne : toT ≠ []) :
    ∀ (l : List ℕ) (es : List Edge), ∀ i ∈ l,
      ∃ j ∈ toT, hasEdge (connectPass2 towns fl toT l es) i j = true := by
  intro l
  induction l with
  | nil => intro es i hi; cases hi
  | cons i0 rest ih =>
    intro es i hi
    rcases List.mem_cons.mp hi with rfl | hi'
    · obtain ⟨j, hj⟩ := euclidMin_isSome towns i toT hne
      have hjm := euclidMin_mem towns i toT j hj
      simp only [connectPass2]
      rw [hj]
      dsimp only
      exact ⟨j, hjm, connectPass2_hasEdge_mono towns fl toT rest _ i j
        (hasEdge_addEdge_self es i j fl)⟩
    · simp only [connectPass2]
      cases hmin : euclidMin towns i0 toT with
      | none => exact ih es i hi'
      | some nearest => exact ih _ i hi'

theorem connectLevels_hasEdge_mono (m : ℕ → ℕ → ℤ) (towns : List Town)
    (fl : String) (tls : List String) (es : List Edge) (a b : ℕ)
    (h : hasEdge es a b = true) :
    hasEdge (connectLevels m towns fl tls es) a b = true := by
  unfold connectLevels
  by_cases hemp : ((towns.filter (fun t => tls.contains t.level)).map Town.id).isEmpty
  · simp only [hemp, if_true]
    exact h
  · simp only [hemp, if_false]
    exact connectPass2_hasEdge_mono towns fl _ _ _ a b
      (connectPass1_hasEdge_mono m fl _ _ (es, []) a b h)

theorem connectLevels_covers (m : ℕ → ℕ → ℤ) (towns : List Town)
    (fl : String) (tls : List String) (es : List Edge) (i : ℕ)
    (hi : i ∈ (towns.filter (fun t => t.level == fl)).map Town.id)
    (hne : (towns.filter (fun t => tls.contains t.level)).map Town.id ≠ []) :
    ∃ j ∈ (towns.filter (fun t => tls.contains t.level)).map Town.id,
      hasEdge (connectLevels m towns fl tls es) i j = true := by
  unfold connectLevels
  have hemp : ((towns.filter (fun t => tls.contains t.level)).map Town.id).isEmpty = false := by
    cases he : (towns.filter (fun t => tls.contains t.level)).map Town.id with
    | nil => exact absurd he hne
    | cons x xs => simp [he]
  simp only [hemp, if_false]
  rcases connectPass1_covers m fl _ hne _ (es, []) i hi with ⟨j, hjm, hj⟩ | hunc
  · exact ⟨j, hjm, connectPass2_hasEdge_mono towns fl _ _ _ i j hj⟩
  · exact connectPass2_covers towns fl _ hne _ _ i hunc

theorem foldl_addEdge_mono (lvl : String) :
    ∀ (ps : List (ℕ × ℕ)) (es : List Edge) (a b : ℕ),
      hasEdge es a b = true →
      hasEdge (ps.foldl (fun es2 p => addEdge es2 p.1 p.2 lvl) es) a b = true := by
  intro ps
  induction ps with
  | nil => intro es a b h; exact h
  | cons p rest ih =>
    intro es a b h
    rw [List.foldl_cons]
    exact ih _ a b (hasEdge_addEdge_mono h)

theorem foldl_addEdge_covers (lvl : String) :
    ∀ (ps : List (ℕ × ℕ)) (es : List Edge), ∀ p ∈ ps,
      hasEdge (ps.foldl (fun es2 q => addEdge es2 q.1 q.2 lvl) es) p.1 p.2 = true := by
  intro ps
  induction ps with
  | nil => intro es p hp; cases hp
  | cons q rest ih =>
    intro es p hp
    rw [List.foldl_cons]
    rcases List.mem_cons.mp hp with rfl | hp'
    · exact foldl_addEdge_mono lvl rest _ p.1 p.2 (hasEdge_addEdge_self es p.1 p.2 lvl)
    · exact ih _ p hp'

theorem connectSameLevel_hasEdge_mono (m : ℕ → ℕ → ℤ) (towns : List Town)
    (lvl : String) (es : List Edge) (a b : ℕ) (h : hasEdge es a b = true) :
    hasEdge (connectSameLevel m towns lvl es) a b = true := by
  unfold connectSameLevel
  by_cases hlen : 1 < ((towns.filter (fun t => t.level == lvl)).map Town.id).length
  · simp only [hlen, if_true]
    exact foldl_addEdge_mono lvl _ es a b h
  · simp only [hlen, if_false]
    exact h

theorem connectSameLevel_covers (m : ℕ → ℕ → ℤ) (towns : List Town)
    (lvl : String) (es : List Edge)
    (hlen : 1 < ((towns.filter (fun t => t.level == lvl)).map Town.id).length) :
    ∀ p ∈ kruskal ((towns.filter (fun t => t.level == lvl)).map Town.id)
        (sortCand (mstCandidates m ((towns.filter (fun t => t.level == lvl)).map Town.id))),
      hasEdge (connectSameLevel m towns lvl es) p.1 p.2 = true := by
  intro p hp
  unfold connectSameLevel
  simp only [hlen, if_true]
  exact foldl_addEdge_covers lvl _ es p hp

/-! ## Kruskal invariants -/

theorem pairIn_symm {ps : List (ℕ × ℕ)} {a b : ℕ} (h : pairIn ps a b) :
    pairIn ps b a := by
  rcases h with h | h
  · exact Or.inr h
  · exact Or.inl h

theorem connP_single {ps : List (ℕ × ℕ)} {a b : ℕ} (h : pairIn ps a b) :
    ConnP ps a b :=
  (ConnP.refl a).tail h

theorem connP_trans {ps : List (ℕ × ℕ)} {a b c : ℕ} (h1 : ConnP ps a b)
    (h2 : ConnP ps b c) : ConnP ps a c := by
  induction h2 with
  | refl => exact h1
  | tail _ hp ih => exact ih.tail hp

theorem connP_symm {ps : List (ℕ × ℕ)} {a b : ℕ} (h : ConnP ps a b) :
    ConnP ps b a := by
  induction h with
  | refl => exact ConnP.refl _
  | tail _ hp ih => exact connP_trans (connP_single (pairIn_symm hp)) ih

theorem sameComp_iff {comps : List (List ℕ)} {a b : ℕ} :
    sameComp comps a b = true ↔ ∃ c ∈ comps, a ∈ c ∧ b ∈ c := by
  simp [sameComp, List.any_eq_true]

theorem contains_neither {c : List ℕ} {a b : ℕ} (hca : ¬c.contains a = true)
    (hcb : ¬c.contains b = true) : (!c.contains a && !c.contains b) = true := by
  simp only [Bool.and_eq_true, Bool.not_eq_true']
  constructor
  · cases hv : c.contains a
    · rfl
    · exact absurd hv hca
  · cases hv : c.contains b
    · rfl
    · exact absurd hv hcb

theorem filter_contains_length_le_one {comps : List (List ℕ)}
    (hpw : comps.Pairwise (fun c d => ∀ x, x ∈ c → x ∉ d)) (a : ℕ) :
    (comps.filter (fun c => c.contains a)).length ≤ 1 := by
  induction comps with
  | nil => simp
  | cons c rest ih =>
    rw [List.pairwise_cons] at hpw
    rw [List.filter_cons]
    by_cases hc : c.contains a = true
    · rw [if_pos hc]
      have hrest : rest.filter (fun c => c.contains a) = [] := by
        rw [List.filter_eq_nil_iff]
        intro d hd hda
        exact (hpw.1 d hd a (by simpa using hc)) (by simpa using hda)
      rw [hrest]
      simp
    · rw [if_neg hc]
      exact ih hpw.2

theorem exists_filter_contains {comps : List (List ℕ)} {ids : List ℕ} {a : ℕ}
    (hpart : PartitionOf comps ids) (ha : a ∈ ids) :
    ∃ c, comps.filter (fun c => c.contains a) = [c] ∧ a ∈ c := by
  obtain ⟨c, hc, hac⟩ := hpart.1 a ha
  have hmem : c ∈ comps.filter (fun c => c.contains a) :=
    List.mem_filter.mpr ⟨hc, by simpa using hac⟩
  have hlen := filter_contains_length_le_one hpart.2.2.1 a
  cases hf : comps.filter (fun c => c.contains a) with
  | nil => rw [hf] at hmem; cases hmem
  | cons d rest =>
    rw [hf] at hmem hlen
    cases rest with
    | cons e es => simp at hlen
    | nil =>
      have : c = d := by simpa using hmem
      subst this
      exact ⟨c, rfl, hac⟩

theorem mergeComp_partition {comps : List (List ℕ)} {ids : List ℕ} {a b : ℕ}
    (hpart : PartitionOf comps ids) (ha : a ∈ ids) (hb : b ∈ ids) :
    PartitionOf (mergeComp comps a b) ids := by
  obtain ⟨hcov, hsup, hpw, hne⟩ := hpart
  have hsym : Symmetric (fun (c d : List ℕ) => ∀ x, x ∈ c → x ∉ d) :=
    fun c d h x hxd hxc => h x hxc hxd
  refine ⟨?_, ?_, ?_, ?_⟩
  · intro i hi
    obtain ⟨c, hc, hic⟩ := hcov i hi
    by_cases hca : c.contains a = true
    · refine ⟨(comps.filter (fun c => c.contains a)).flatten ++
        (comps.filter (fun c => c.contains b)).flatten, by simp [mergeComp], ?_⟩
      exact List.mem_append.mpr (Or.inl (List.mem_flatten.mpr
        ⟨c, List.mem_filter.mpr ⟨hc, hca⟩, hic⟩))
    · by_cases hcb : c.contains b = true
      · refine ⟨(comps.filter (fun c => c.contains a)).flatten ++
          (comps.filter (fun c => c.contains b)).flatten, by simp [mergeComp], ?_⟩
        exact List.mem_append.mpr (Or.inr (List.mem_flatten.mpr
          ⟨c, List.mem_filter.mpr ⟨hc, hcb⟩, hic⟩))
      · refine ⟨c, ?_, hic⟩
        unfold mergeComp
        exact List.mem_cons.mpr (Or.inr (List.mem_filter.mpr
          ⟨hc, contains_neither hca hcb⟩))
  · intro c hc i hi
    rcases List.mem_cons.mp hc with rfl | hcr
    · rcases List.mem_append.mp hi with hi' | hi'
      · obtain ⟨d, hd, hid⟩ := List.mem_flatten.mp hi'
        exact hsup d (List.mem_filter.mp hd).1 i hid
      · obtain ⟨d, hd, hid⟩ := List.mem_flatten.mp hi'
        exact hsup d (List.mem_filter.mp hd).1 i hid
    · exact hsup c (List.mem_filter.mp hcr).1 i hi
  · unfold mergeComp
    rw [List.pairwise_cons]
    constructor
    · intro d hd x hx hxd
      have hdm := List.mem_filter.mp hd
      rcases List.mem_append.mp hx with hx' | hx'
      · obtain ⟨c', hc', hxc'⟩ := List.mem_flatten.mp hx'
        obtain ⟨hc'm, hc'a⟩ := List.mem_filter.mp hc'
        have hne' : c' ≠ d := by
          intro he
          rw [he] at hc'a
          have hflag := (List.mem_filter.mp hd).2
          rw [hc'a] at hflag
          simp at hflag
        exact hpw.forall hsym hc'm hdm.1 hne' x hxc' hxd
      · obtain ⟨c', hc', hxc'⟩ := List.mem_flatten.mp hx'
        obtain ⟨hc'm, hc'b⟩ := List.mem_filter.mp hc'
        have hne' : c' ≠ d := by
          intro he
          rw [he] at hc'b
          have hflag := (List.mem_filter.mp hd).2
          rw [hc'b] at hflag
          simp at hflag
        exact hpw.forall hsym hc'm hdm.1 hne' x hxc' hxd
    · exact hpw.sublist (List.filter_sublist _)
  · intro c hc
    rcases List.mem_cons.mp hc with rfl | hcr
    · obtain ⟨ca, hca, haca⟩ := hcov a ha
      have hmem : a ∈ (comps.filter (fun c => c.contains a)).flatten :=
        List.mem_flatten.mpr ⟨ca, List.mem_filter.mpr ⟨hca, by simpa using haca⟩, haca⟩
      intro he
      rw [(List.append_eq_nil.mp he).1] at hmem
      exact absurd hmem (by simp)
    · exact hne c (List.mem_filter.mp hcr).1

theorem three_way_length {α : Type} (p q : α → Bool) :
    ∀ (l : List α), (∀ x ∈ l, ¬(p x = true ∧ q x = true)) →
      l.length = (l.filter p).length + (l.filter q).length +
        (l.filter (fun x => !p x && !q x)).length := by
  intro l
  induction l with
  | nil => intro _; simp
  | cons x xs ih =>
    intro hl
    have hx := hl x (by simp)
    have hxs : ∀ y ∈ xs, ¬(p y = true ∧ q y = true) := fun y hy => hl y (by simp [hy])
    rw [List.length_cons, List.filter_cons, List.filter_cons, List.filter_cons,
      ih hxs]
    by_cases hp : p x = true
    · have hq : q x = false := by
        cases hqv : q x
        · rfl
        · exact absurd ⟨hp, hqv⟩ hx
      simp [hp, hq]
      omega
    · have hp' : p x = false := by
        cases hpv : p x
        · rfl
        · exact absurd hpv hp
      by_cases hq : q x = true
      · simp [hp', hq]
        omega
      · have hq' : q x = false := by
          cases hqv : q x
          · rfl
          · exact absurd hqv hq
        simp [hp', hq']
        omega

theorem mergeComp_length {comps : List (List ℕ)} {ids : List ℕ} {a b : ℕ}
    (hpart : PartitionOf comps ids) (ha : a ∈ ids) (hb : b ∈ ids)
    (hsc : sameComp comps a b = false) :
    comps.length = (mergeComp comps a b).length + 1 := by
  obtain ⟨ca, hca, _⟩ := exists_filter_contains hpart ha
  obtain ⟨cb, hcb, _⟩ := exists_filter_contains hpart hb
  have hnot : ∀ c ∈ comps, ¬(c.contains a = true ∧ c.contains b = true) := by
    rintro c hc ⟨h1, h2⟩
    have : sameComp comps a b = true :=
      sameComp_iff.mpr ⟨c, hc, by simpa using h1, by simpa using h2⟩
    rw [hsc] at this
    cases this
  have hsplit := three_way_length (fun c => c.contains a) (fun c => c.contains b)
    comps hnot
  rw [hca, hcb] at hsplit
  unfold mergeComp
  rw [List.length_cons]
  simp only [List.length_singleton] at hsplit
  omega

theorem sameComp_mergeComp_mono {comps : List (List ℕ)} {a b x y : ℕ}
    (h : sameComp comps x y = true) :
    sameComp (mergeComp comps a b) x y = true := by
  obtain ⟨c, hc, hxc, hyc⟩ := sameComp_iff.mp h
  by_cases hca : c.contains a = true
  · refine sameComp_iff.mpr ⟨(comps.filter (fun c => c.contains a)).flatten ++
      (comps.filter (fun c => c.contains b)).flatten, by simp [mergeComp], ?_, ?_⟩
    · exact List.mem_append.mpr (Or.inl (List.mem_flatten.mpr
        ⟨c, List.mem_filter.mpr ⟨hc, hca⟩, hxc⟩))
    · exact List.mem_append.mpr (Or.inl (List.mem_flatten.mpr
        ⟨c, List.mem_filter.mpr ⟨hc, hca⟩, hyc⟩))
  · by_cases hcb : c.contains b = true
    · refine sameComp_iff.mpr ⟨(comps.filter (fun c => c.contains a)).flatten ++
        (comps.filter (fun c => c.contains b)).flatten, by simp [mergeComp], ?_, ?_⟩
      · exact List.mem_append.mpr (Or.inr (List.mem_flatten.mpr
          ⟨c, List.mem_filter.mpr ⟨hc, hcb⟩, hxc⟩))
      · exact List.mem_append.mpr (Or.inr (List.mem_flatten.mpr
          ⟨c, List.mem_filter.mpr ⟨hc, hcb⟩, hyc⟩))
    · refine sameComp_iff.mpr ⟨c, ?_, hxc, hyc⟩
      unfold mergeComp
      exact List.mem_cons.mpr (Or.inr (List.mem_filter.mpr
        ⟨hc, contains_neither hca hcb⟩))

theorem sameComp_mergeComp_self {comps : List (List ℕ)} {ids : List ℕ} {a b : ℕ}
    (hpart : PartitionOf comps ids) (ha : a ∈ ids) (hb : b ∈ ids) :
    sameComp (mergeComp comps a b) a b = true := by
  obtain ⟨ca, hca, haa⟩ := hpart.1 a ha
  obtain ⟨cb, hcb, hbb⟩ := hpart.1 b hb
  refine sameComp_iff.mpr ⟨(comps.filter (fun c => c.contains a)).flatten ++
    (comps.filter (fun c => c.contains b)).flatten, by simp [mergeComp], ?_, ?_⟩
  · exact List.mem_append.mpr (Or.inl (List.mem_flatten.mpr
      ⟨ca, List.mem_filter.mpr ⟨hca, by simpa using haa⟩, haa⟩))
  · exact List.mem_append.mpr (Or.inr (List.mem_flatten.mpr
      ⟨cb, List.mem_filter.mpr ⟨hcb, by simpa using hbb⟩, hbb⟩))

theorem mergeComp_compConn {comps : List (List ℕ)} {acc : List (ℕ × ℕ)}
    {a b : ℕ} (hconn : CompConn comps acc) :
    CompConn (mergeComp comps a b) (acc ++ [(a, b)]) := by
  have hlift : ∀ x y, ConnP acc x y → ConnP (acc ++ [(a, b)]) x y :=
    fun x y h => connP_mono (fun u v hp => pairIn_append_left hp) h
  have hxa : ∀ z, z ∈ (comps.filter (fun c => c.contains a)).flatten →
      ConnP (acc ++ [(a, b)]) z a := by
    intro z hz
    obtain ⟨c', hc', hzc'⟩ := List.mem_flatten.mp hz
    obtain ⟨hcm, hcont⟩ := List.mem_filter.mp hc'
    exact hlift z a (hconn c' hcm z hzc' a (by simpa using hcont))
  have hxb : ∀ z, z ∈ (comps.filter (fun c => c.contains b)).flatten →
      ConnP (acc ++ [(a, b)]) z b := by
    intro z hz
    obtain ⟨c', hc', hzc'⟩ := List.mem_flatten.mp hz
    obtain ⟨hcm, hcont⟩ := List.mem_filter.mp hc'
    exact hlift z b (hconn c' hcm z hzc' b (by simpa using hcont))
  have hab : ConnP (acc ++ [(a, b)]) a b :=
    connP_single (Or.inl (by simp))
  intro c hc x hx y hy
  rcases List.mem_cons.mp hc with rfl | hcr
  · rcases List.mem_append.mp hx with hx' | hx' <;>
      rcases List.mem_append.mp hy with hy' | hy'
    · exact connP_trans (hxa x hx') (connP_symm (hxa y hy'))
    · exact connP_trans (connP_trans (hxa x hx') hab) (connP_symm (hxb y hy'))
    · exact connP_trans (connP_trans (hxb x hx') (connP_symm hab))
        (connP_symm (hxa y hy'))
    · exact connP_trans (hxb x hx') (connP_symm (hxb y hy'))
  · obtain ⟨hcm, _⟩ := List.mem_filter.mp hcr
    exact hlift x y (hconn c hcm x hx y hy)

theorem comps_length_one {comps : List (List ℕ)} {ids : List ℕ}
    (hpart : PartitionOf comps ids) (hids : ids ≠ [])
    (hall : ∀ x ∈ ids, ∀ y ∈ ids, sameComp comps x y = true) :
    comps.length = 1 := by
  cases comps with
  | nil =>
    obtain ⟨i, hi⟩ := List.exists_mem_of_ne_nil ids hids
    obtain ⟨c, hc, _⟩ := hpart.1 i hi
    cases hc
  | cons c1 rest =>
    cases rest with
    | nil => rfl
    | cons c2 rest2 =>
      exfalso
      obtain ⟨x, hx⟩ := List.exists_mem_of_ne_nil c1 (hpart.2.2.2 c1 (by simp))
      obtain ⟨y, hy⟩ := List.exists_mem_of_ne_nil c2 (hpart.2.2.2 c2 (by simp))
      have hxi := hpart.2.1 c1 (by simp) x hx
      have hyi := hpart.2.1 c2 (by simp) y hy
      have hpw := hpart.2.2.1
      rw [List.pairwise_cons] at hpw
      obtain ⟨c, hcm, hxc, hyc⟩ := sameComp_iff.mp (hall x hxi y hyi)
      rcases List.mem_cons.mp hcm with rfl | hcm2
      · exact hpw.1 c2 (by simp) y hyc hy
      · exact hpw.1 c hcm2 x hx hxc

theorem kruskalGo_inv (ids : List ℕ) :
    ∀ (cand : List (ℕ × ℕ × ℤ)) (comps : List (List ℕ)) (acc : List (ℕ × ℕ)),
      PartitionOf comps ids → CompConn comps acc →
      (∀ p ∈ cand, p.1 ∈ ids ∧ p.2.1 ∈ ids) →
      PartitionOf (kruskalGo cand comps acc).2 ids ∧
      CompConn (kruskalGo cand comps acc).2 (kruskalGo cand comps acc).1 ∧
      (kruskalGo cand comps acc).1.length + (kruskalGo cand comps acc).2.length =
        acc.length + comps.length ∧
      (∀ x y, sameComp comps x y = true →
        sameComp (kruskalGo cand comps acc).2 x y = true) ∧
      ∀ p ∈ cand, sameComp (kruskalGo cand comps acc).2 p.1 p.2.1 = true := by
  intro cand
  induction cand with
  | nil =>
    intro comps acc h1 h2 _
    exact ⟨h1, h2, rfl, fun x y h => h, by simp⟩
  | cons e rest ih =>
    intro comps acc hpart hconn hc
    obtain ⟨a, b, w⟩ := e
    have hae : a ∈ ids := (hc (a, b, w) (by simp)).1
    have hbe : b ∈ ids := (hc (a, b, w) (by simp)).2
    simp only [kruskalGo]
    by_cases hsc : sameComp comps a b = true
    · rw [if_pos hsc]
      obtain ⟨i1, i2, i3, i4, i5⟩ := ih comps acc hpart hconn
        (fun p hp => hc p (by simp [hp]))
      refine ⟨i1, i2, i3, i4, ?_⟩
      intro p hp
      rcases List.mem_cons.mp hp with rfl | hp'
      · exact i4 _ _ hsc
      · exact i5 p hp'
    · rw [if_neg hsc]
      have hsc' : sameComp comps a b = false := by
        cases hv : sameComp comps a b
        · rfl
        · exact absurd hv hsc
      obtain ⟨i1, i2, i3, i4, i5⟩ := ih (mergeComp comps a b) (acc ++ [(a, b)])
        (mergeComp_partition hpart hae hbe) (mergeComp_compConn hconn)
        (fun p hp => hc p (by simp [hp]))
      refine ⟨i1, i2, ?_, ?_, ?_⟩
      · rw [i3, List.length_append]
        have := mergeComp_length hpart hae hbe hsc'
        simp only [List.length_cons, List.length_nil]
        omega
      · intro x y h
        exact i4 x y (sameComp_mergeComp_mono h)
      · intro p hp
        rcases List.mem_cons.mp hp with rfl | hp'
        · exact i4 _ _ (sameComp_mergeComp_self hpart hae hbe)
        · exact i5 p hp'

theorem kruskal_spanning (ids : List ℕ) (hnd : ids.Nodup) (hne : ids ≠ [])
    (cand : List (ℕ × ℕ × ℤ))
    (hcand : ∀ p ∈ cand, p.1 ∈ ids ∧ p.2.1 ∈ ids)
    (hall : ∀ x ∈ ids, ∀ y ∈ ids, x ≠ y →
      ∃ w, (x, y, w) ∈ cand ∨ (y, x, w) ∈ cand) :
    (kruskal ids cand).length + 1 = ids.length ∧
    ∀ x ∈ ids, ∀ y ∈ ids, ConnP (kruskal ids cand) x y := by
  have hpart0 : PartitionOf (ids.map (fun i => [i])) ids := by
    refine ⟨?_, ?_, ?_, ?_⟩
    · intro i hi
      exact ⟨[i], List.mem_map.mpr ⟨i, hi, rfl⟩, by simp⟩
    · intro c hc i hi
      obtain ⟨j, hj, rfl⟩ := List.mem_map.mp hc
      have : i = j := by simpa using hi
      subst this
      exact hj
    · refine List.Pairwise.map _ ?_ hnd
      intro u v huv x hx1 hx2
      have e1 : x = u := by simpa using hx1
      have e2 : x = v := by simpa using hx2
      exact huv (e1 ▸ e2)
    · intro c hc
      obtain ⟨j, _, rfl⟩ := List.mem_map.mp hc
      simp
  have hconn0 : CompConn (ids.map (fun i => [i])) [] := by
    intro c hc x hx y hy
    obtain ⟨j, _, rfl⟩ := List.mem_map.mp hc
    have e1 : x = j := by simpa using hx
    have e2 : y = j := by simpa using hy
    subst e1
    subst e2
    exact ConnP.refl _
  obtain ⟨p1, p2, p3, p4, p5⟩ := kruskalGo_inv ids cand (ids.map (fun i => [i]))
    [] hpart0 hconn0 hcand
  have hallsc : ∀ x ∈ ids, ∀ y ∈ ids,
      sameComp (kruskalGo cand (ids.map (fun i => [i])) []).2 x y = true := by
    intro x hx y hy
    by_cases hxy : x = y
    · subst hxy
      obtain ⟨c, hc, hxc⟩ := p1.1 x hx
      exact sameComp_iff.mpr ⟨c, hc, hxc, hxc⟩
    · obtain ⟨w, hw | hw⟩ := hall x hx y hy hxy
      · exact p5 (x, y, w) hw
      · obtain ⟨c, hc, h1, h2⟩ := sameComp_iff.mp (p5 (y, x, w) hw)
        exact sameComp_iff.mpr ⟨c, hc, h2, h1⟩
  have hlen1 : (kruskalGo cand (ids.map (fun i => [i])) []).2.length = 1 :=
    comps_length_one p1 hne hallsc
  constructor
  · have h3 := p3
    rw [hlen1] at h3
    simpa [kruskal] using h3
  · intro x hx y hy
    obtain ⟨c, hc, hxc, hyc⟩ := sameComp_iff.mp (hallsc x hx y hy)
    exact p2 c hc x hxc y hyc

theorem mstCandidates_mem (m : ℕ → ℕ → ℤ) :
    ∀ (ids : List ℕ) (p : ℕ × ℕ × ℤ), p ∈ mstCandidates m ids →
      p.1 ∈ ids ∧ p.2.1 ∈ ids := by
  intro ids
  induction ids with
  | nil => intro p hp; cases hp
  | cons a rest ih =>
    intro p hp
    rw [mstCandidates, List.mem_append] at hp
    rcases hp with hp | hp
    · obtain ⟨b, hb, rfl⟩ := List.mem_map.mp hp
      exact ⟨by simp, by simp [hb]⟩
    · obtain ⟨h1, h2⟩ := ih p hp
      exact ⟨by simp [h1], by simp [h2]⟩

theorem mstCandidates_all (m : ℕ → ℕ → ℤ) :
    ∀ (ids : List ℕ), ∀ x ∈ ids, ∀ y ∈ ids, x ≠ y →
      ∃ w, (x, y, w) ∈ mstCandidates m ids ∨ (y, x, w) ∈ mstCandidates m ids := by
  intro ids
  induction ids with
  | nil => intro x hx; cases hx
  | cons a rest ih =>
    intro x hx y hy hxy
    rcases List.mem_cons.mp hx with rfl | hx'
    · rcases List.mem_cons.mp hy with rfl | hy'
      · exact absurd rfl hxy
      · refine ⟨m y x, Or.inl ?_⟩
        rw [mstCandidates, List.mem_append]
        exact Or.inl (List.mem_map.mpr ⟨y, hy', rfl⟩)
    · rcases List.mem_cons.mp hy with rfl | hy'
      · refine ⟨m x y, Or.inr ?_⟩
        rw [mstCandidates, List.mem_append]
        exact Or.inl (List.mem_map.mpr ⟨x, hx', rfl⟩)
      · obtain ⟨w, hw | hw⟩ := ih x hx' y hy' hxy
        · refine ⟨w, Or.inl ?_⟩
          rw [mstCandidates, List.mem_append]
          exact Or.inr hw
        · refine ⟨w, Or.inr ?_⟩
          rw [mstCandidates, List.mem_append]
          exact Or.inr hw

theorem sortCand_mem {cand : List (ℕ × ℕ × ℤ)} {p : ℕ × ℕ × ℤ} :
    p ∈ sortCand cand ↔ p ∈ cand := by
  unfold sortCand
  exact (sortLe_perm _ cand).mem_iff

/-! ## Assembling `build_network_frame` -/

theorem stepsOf_sub :
    ∀ (xs : List String) (fl : String) (tls : List String),
      (fl, tls) ∈ stepsOf xs → fl ∈ xs ∧ ∀ l ∈ tls, l ∈ xs := by
  intro xs
  induction xs with
  | nil => intro fl tls h; cases h
  | cons x rest ih =>
    intro fl tls h
    cases rest with
    | nil => cases h
    | cons y ys =>
      rcases List.mem_cons.mp h with he | h'
      · rw [Prod.mk.injEq] at he
        obtain ⟨rfl, rfl⟩ := he
        exact ⟨by simp, fun l hl => by simp [hl]⟩
      · obtain ⟨h1, h2⟩ := ih fl tls h'
        exact ⟨by simp [h1], fun l hl => by simp [h2 l hl]⟩

theorem stepsOf_lt :
    ∀ (xs : List String), xs.Nodup →
      ∀ (fl : String) (tls : List String), (fl, tls) ∈ stepsOf xs →
        ∀ l ∈ tls, xs.indexOf fl < xs.indexOf l := by
  intro xs
  induction xs with
  | nil => intro _ fl tls h; cases h
  | cons x rest ih =>
    intro hnd fl tls h l hl
    rw [List.nodup_cons] at hnd
    cases rest with
    | nil => cases h
    | cons y ys =>
      rcases List.mem_cons.mp h with he | h'
      · rw [Prod.mk.injEq] at he
        obtain ⟨rfl, rfl⟩ := he
        rw [List.indexOf_cons_self]
        have hlx : fl ≠ l := by
          intro he2
          exact hnd.1 (he2 ▸ hl)
        rw [List.indexOf_cons_ne _ hlx]
        exact Nat.succ_pos _
      · obtain ⟨hfl, htl⟩ := stepsOf_sub (y :: ys) fl tls h'
        have hflx : x ≠ fl := by
          intro he2
          exact hnd.1 (he2 ▸ hfl)
        have hlx : x ≠ l := by
          intro he2
          exact hnd.1 (he2 ▸ htl l hl)
        rw [List.indexOf_cons_ne _ hflx, List.indexOf_cons_ne _ hlx]
        exact Nat.succ_lt_succ (ih hnd.2 fl tls h' l hl)

theorem stepsOf_exists :
    ∀ (xs : List String) (l1 l2 : String), l1 ∈ xs → l2 ∈ xs →
      xs.indexOf l1 < xs.indexOf l2 →
      ∃ tls, (l1, tls) ∈ stepsOf xs ∧ l2 ∈ tls := by
  intro xs
  induction xs with
  | nil => intro l1 l2 h; cases h
  | cons x rest ih =>
    intro l1 l2 h1 h2 hlt
    by_cases he1 : l1 = x
    · subst he1
      have hne2 : l2 ≠ l1 := by
        intro he
        subst he
        rw [List.indexOf_cons_self] at hlt
        exact absurd hlt (by omega)
      have hl2 : l2 ∈ rest := by
        rcases List.mem_cons.mp h2 with he | h
        · exact absurd he hne2
        · exact h
      cases rest with
      | nil => cases hl2
      | cons y ys => exact ⟨y :: ys, by simp [stepsOf], hl2⟩
    · have hx1 : x ≠ l1 := fun he => he1 he.symm
      have hne2 : l2 ≠ x := by
        intro he
        subst he
        rw [List.indexOf_cons_self, List.indexOf_cons_ne _ hx1] at hlt
        exact absurd hlt (by omega)
      have hx2 : x ≠ l2 := fun he => hne2 he.symm
      have hl1 : l1 ∈ rest := by
        rcases List.mem_cons.mp h1 with he | h
        · exact absurd he he1
        · exact h
      have hl2 : l2 ∈ rest := by
        rcases List.mem_cons.mp h2 with he | h
        · exact absurd he hne2
        · exact h
      have hlt' : rest.indexOf l1 < rest.indexOf l2 := by
        rw [List.indexOf_cons_ne _ hx1, List.indexOf_cons_ne _ hx2] at hlt
        omega
      obtain ⟨tls, ht, hm⟩ := ih l1 l2 hl1 hl2 hlt'
      cases rest with
      | nil => cases hl1
      | cons y ys => exact ⟨tls, by simp [stepsOf]; right; exact ht, hm⟩

theorem foldMax_ge :
    ∀ (ts : List Town) (init : String),
      lvlIdx init ≤ lvlIdx (ts.foldl
        (fun best u => if lvlIdx best < lvlIdx u.level then u.level else best) init) ∧
      ∀ u ∈ ts, lvlIdx u.level ≤ lvlIdx (ts.foldl
        (fun best u => if lvlIdx best < lvlIdx u.level then u.level else best) init) := by
  intro ts
  induction ts with
  | nil => intro init; exact ⟨Nat.le_refl _, by simp⟩
  | cons u us ih =>
    intro init
    rw [List.foldl_cons]
    constructor
    · have h1 : lvlIdx init ≤
          lvlIdx (if lvlIdx init < lvlIdx u.level then u.level else init) := by
        split
        · omega
        · exact Nat.le_refl _
      exact h1.trans (ih _).1
    · intro v hv
      rcases List.mem_cons.mp hv with rfl | hv'
      · have h1 : lvlIdx v.level ≤
            lvlIdx (if lvlIdx init < lvlIdx v.level then v.level else init) := by
          split
          · exact Nat.le_refl _
          · omega
        exact h1.trans (ih _).1
      · exact (ih _).2 v hv'

theorem foldMax_mem :
    ∀ (ts : List Town) (init : String),
      ts.foldl (fun best u => if lvlIdx best < lvlIdx u.level then u.level else best)
        init = init ∨
      ∃ u ∈ ts, ts.foldl
        (fun best u => if lvlIdx best < lvlIdx u.level then u.level else best)
        init = u.level := by
  intro ts
  induction ts with
  | nil => intro init; exact Or.inl rfl
  | cons u us ih =>
    intro init
    rw [List.foldl_cons]
    rcases ih (if lvlIdx init < lvlIdx u.level then u.level else init) with h | ⟨v, hv, h⟩
    · rw [h]
      split
      · exact Or.inr ⟨u, by simp, rfl⟩
      · exact Or.inl rfl
    · exact Or.inr ⟨v, by simp [hv], h⟩

theorem highestLevel_spec (towns : List Town) (hne : towns ≠ []) :
    (∀ t ∈ towns, lvlIdx t.level ≤ lvlIdx (highestLevel towns)) ∧
    ∃ w ∈ towns, w.level = highestLevel towns := by
  cases towns with
  | nil => exact absurd rfl hne
  | cons t ts =>
    constructor
    · intro u hu
      rcases List.mem_cons.mp hu with rfl | hu'
      · exact (foldMax_ge ts u.level).1
      · exact (foldMax_ge ts t.level).2 u hu'
    · rcases foldMax_mem ts t.level with h | ⟨u, hu, h⟩
      · exact ⟨t, by simp, h.symm⟩
      · exact ⟨u, by simp [hu], h.symm⟩

theorem levels_nodup : levels.Nodup := by decide

theorem steps_fold_mono (m : ℕ → ℕ → ℤ) (towns : List Town) :
    ∀ (steps : List (String × List String)) (es : List Edge) (a b : ℕ),
      hasEdge es a b = true →
      hasEdge (steps.foldl (fun es2 st => connectLevels m towns st.1 st.2 es2) es)
        a b = true := by
  intro steps
  induction steps with
  | nil => intro es a b h; exact h
  | cons st rest ih =>
    intro es a b h
    rw [List.foldl_cons]
    exact ih _ a b (connectLevels_hasEdge_mono m towns st.1 st.2 es a b h)

theorem steps_fold_covers (m : ℕ → ℕ → ℤ) (towns : List Town) :
    ∀ (steps : List (String × List String)) (es : List Edge)
      (fl : String) (tls : List String), (fl, tls) ∈ steps →
      ∀ i ∈ (towns.filter (fun t => t.level == fl)).map Town.id,
      (towns.filter (fun t => tls.contains t.level)).map Town.id ≠ [] →
      ∃ j ∈ (towns.filter (fun t => tls.contains t.level)).map Town.id,
        hasEdge (steps.foldl (fun es2 st => connectLevels m towns st.1 st.2 es2) es)
          i j = true := by
  intro steps
  induction steps with
  | nil => intro es fl tls h; cases h
  | cons st rest ih =>
    intro es fl tls h i hi hnemp
    rw [List.foldl_cons]
    rcases List.mem_cons.mp h with he | h'
    · obtain ⟨sfl, stls⟩ := st
      rw [Prod.mk.injEq] at he
      obtain ⟨rfl, rfl⟩ := he
      obtain ⟨j, hjm, hj⟩ := connectLevels_covers m towns fl tls es i hi hnemp
      exact ⟨j, hjm, steps_fold_mono m towns rest _ i j hj⟩
    · exact ih _ fl tls h' i hi hnemp

theorem kruskalGo_acc_sub :
    ∀ (cand : List (ℕ × ℕ × ℤ)) (comps : List (List ℕ)) (acc : List (ℕ × ℕ)),
      ∀ p ∈ (kruskalGo cand comps acc).1,
        p ∈ acc ∨ ∃ w, (p.1, p.2, w) ∈ cand := by
  intro cand
  induction cand with
  | nil => intro comps acc p hp; exact Or.inl hp
  | cons e rest ih =>
    intro comps acc p hp
    obtain ⟨a, b, w⟩ := e
    simp only [kruskalGo] at hp
    by_cases hsc : sameComp comps a b = true
    · rw [if_pos hsc] at hp
      rcases ih comps acc p hp with h | ⟨w', hw'⟩
      · exact Or.inl h
      · exact Or.inr ⟨w', by simp [hw']⟩
    · rw [if_neg hsc] at hp
      rcases ih (mergeComp comps a b) (acc ++ [(a, b)]) p hp with h | ⟨w', hw'⟩
      · rcases List.mem_append.mp h with h2 | h2
        · exact Or.inl h2
        · have : p = (a, b) := by simpa using h2
          subst this
          exact Or.inr ⟨w, by simp⟩
      · exact Or.inr ⟨w', by simp [hw']⟩

/-- C2: on a nonempty classified settlement table (unique ids, levels
among the ten tiers — under which every non-top present tier automatically
has a strictly denser settlement, namely any settlement of the densest
present tier), the graph built by `build_network_frame` is connected, and
the densest present tier is connected among itself by the MST edges,
exactly `k − 1` of them for `k` members. -/
theorem build_network_frame_connected (m : ℕ → ℕ → ℤ) (towns : List Town)
    (hne : towns ≠ []) (hlv : ∀ t ∈ towns, t.level ∈ levels)
    (hnd : (towns.map Town.id).Nodup) :
    (∀ a ∈ towns, ∀ b ∈ towns, Conn (build_network_frame m towns) a.id b.id) ∧
    (topMstEdges m towns).length + 1 = (topIds towns).length ∧
    (∀ i ∈ topIds towns, ∀ j ∈ topIds towns, ConnP (topMstEdges m towns) i j) := by
  obtain ⟨hmax, w, hw, hwlvl⟩ := highestLevel_spec towns hne
  have hwid : w.id ∈ topIds towns := by
    unfold topIds
    exact List.mem_map.mpr ⟨w, List.mem_filter.mpr ⟨hw, by simp [hwlvl]⟩, rfl⟩
  have htopne : topIds towns ≠ [] := List.ne_nil_of_mem hwid
  have htopnd : (topIds towns).Nodup := by
    unfold topIds
    exact hnd.sublist ((List.filter_sublist towns).map Town.id)
  have hspan := kruskal_spanning (topIds towns) htopnd htopne
    (sortCand (mstCandidates m (topIds towns)))
    (fun p hp => mstCandidates_mem m (topIds towns) p (sortCand_mem.mp hp))
    (fun x hx y hy hxy => by
      obtain ⟨w', hw'⟩ := mstCandidates_all m (topIds towns) x hx y hy hxy
      exact ⟨w', by
        rcases hw' with h | h
        · exact Or.inl (sortCand_mem.mpr h)
        · exact Or.inr (sortCand_mem.mpr h)⟩)
  refine ⟨?_, hspan.1, hspan.2⟩
  -- the MST pairs are edges of the final graph
  have hmstedge : ∀ a b, pairIn (topMstEdges m towns) a b →
      edgePair (build_network_frame m towns) a b := by
    intro a b hp
    by_cases hk : 1 < ((towns.filter
        (fun t => t.level == highestLevel towns)).map Town.id).length
    · have hcov := connectSameLevel_covers m towns (highestLevel towns)
        ((stepsOf levels).foldl (fun es2 st => connectLevels m towns st.1 st.2 es2) [])
        hk
      rcases hp with h | h
      · exact hasEdge_iff.mp (hcov (a, b) h)
      · exact edgePair_symm (hasEdge_iff.mp (hcov (b, a) h))
    · exfalso
      have hlen1 : (topIds towns).length = 1 := by
        have := List.length_pos.mpr htopne
        unfold topIds at *
        omega
      cases hti : topIds towns with
      | nil => exact htopne hti
      | cons x xs =>
        cases xs with
        | cons z zs => rw [hti] at hlen1; simp at hlen1
        | nil =>
          have hempty : topMstEdges m towns = [] := by
            unfold topMstEdges
            rw [hti]
            rfl
          rw [hempty] at hp
          rcases hp with h | h <;> cases h
  -- every town connects to the top witness
  have hkey : ∀ n, ∀ t ∈ towns,
      lvlIdx (highestLevel towns) - lvlIdx t.level ≤ n →
      Conn (build_network_frame m towns) t.id w.id := by
    intro n
    induction n with
    | zero =>
      intro t ht hle
      have heq : lvlIdx t.level = lvlIdx (highestLevel towns) := by
        have := hmax t ht
        omega
      have hteq : t.level = highestLevel towns := by
        have h2 : highestLevel towns ∈ levels := hwlvl ▸ hlv w hw
        exact (List.indexOf_inj (hlv t ht) h2).mp heq
      have htid : t.id ∈ topIds towns := by
        unfold topIds
        exact List.mem_map.mpr ⟨t, List.mem_filter.mpr ⟨ht, by simp [hteq]⟩, rfl⟩
      exact connP_lift hmstedge (hspan.2 t.id htid w.id hwid)
    | succ n ihn =>
      intro t ht hle
      by_cases heq : lvlIdx t.level = lvlIdx (highestLevel towns)
      · have hteq : t.level = highestLevel towns := by
          have h2 : highestLevel towns ∈ levels := hwlvl ▸ hlv w hw
          exact (List.indexOf_inj (hlv t ht) h2).mp heq
        have htid : t.id ∈ topIds towns := by
          unfold topIds
          exact List.mem_map.mpr ⟨t, List.mem_filter.mpr ⟨ht, by simp [hteq]⟩, rfl⟩
        exact connP_lift hmstedge (hspan.2 t.id htid w.id hwid)
      · have hlt : lvlIdx t.level < lvlIdx (highestLevel towns) :=
          lt_of_le_of_ne (hmax t ht) heq
        have h1 : t.level ∈ levels := hlv t ht
        have h2 : highestLevel towns ∈ levels := hwlvl ▸ hlv w hw
        obtain ⟨tls, hst, htop_in⟩ := stepsOf_exists levels t.level
          (highestLevel towns) h1 h2 hlt
        have hifrom : t.id ∈ (towns.filter (fun u => u.level == t.level)).map Town.id :=
          List.mem_map.mpr ⟨t, List.mem_filter.mpr ⟨ht, by simp⟩, rfl⟩
        have hwto : w.id ∈ (towns.filter (fun u => tls.contains u.level)).map Town.id := by
          refine List.mem_map.mpr ⟨w, List.mem_filter.mpr ⟨hw, ?_⟩, rfl⟩
          rw [hwlvl]
          simpa using htop_in
        obtain ⟨j, hjm, hj⟩ := steps_fold_covers m towns (stepsOf levels) []
          t.level tls hst t.id hifrom (List.ne_nil_of_mem hwto)
        obtain ⟨u, hu, hju⟩ := List.mem_map.mp hjm
        obtain ⟨hut, hul⟩ := List.mem_filter.mp hu
        have hulvl : lvlIdx t.level < lvlIdx u.level :=
          stepsOf_lt levels levels_nodup t.level tls hst u.level (by simpa using hul)
        have hedge : hasEdge (build_network_frame m towns) t.id u.id = true := by
          unfold build_network_frame
          rw [← hju] at hj
          exact connectSameLevel_hasEdge_mono m towns (highestLevel towns) _ t.id u.id hj
        have hrec : Conn (build_network_frame m towns) u.id w.id := by
          apply ihn u hut
          have := hmax u hut
          omega
        exact conn_trans (conn_single (hasEdge_iff.mp hedge)) hrec
  intro a ha b hb
  exact conn_trans
    (hkey (lvlIdx (highestLevel towns) - lvlIdx a.level) a ha (Nat.le_refl _))
    (conn_symm (hkey (lvlIdx (highestLevel towns) - lvlIdx b.level) b hb (Nat.le_refl _)))

/-- Witness for C2 on a two-town table (both towns at the densest tier):
the graph is connected and the MST consists of exactly one edge. -/
theorem build_network_frame_connected_witness :
    (∀ a ∈ [(⟨0, "A", 4000000, "Сверхкрупный город", 0, 0⟩ : Town),
            ⟨1, "B", 3500000, "Сверхкрупный город", 1, 0⟩],
     ∀ b ∈ [(⟨0, "A", 4000000, "Сверхкрупный город", 0, 0⟩ : Town),
            ⟨1, "B", 3500000, "Сверхкрупный город", 1, 0⟩],
      Conn (build_network_frame (fun i j => if i = j then 0 else 7)
        [⟨0, "A", 4000000, "Сверхкрупный город", 0, 0⟩,
         ⟨1, "B", 3500000, "Сверхкрупный город", 1, 0⟩]) a.id b.id) ∧
    (topMstEdges (fun i j => if i = j then 0 else 7)
        [⟨0, "A", 4000000, "Сверхкрупный город", 0, 0⟩,
         ⟨1, "B", 3500000, "Сверхкрупный город", 1, 0⟩]).length + 1 =
      (topIds [⟨0, "A", 4000000, "Сверхкрупный город", 0, 0⟩,
               ⟨1, "B", 3500000, "Сверхкрупный город", 1, 0⟩]).length ∧
    (∀ i ∈ topIds [(⟨0, "A", 4000000, "Сверхкрупный город", 0, 0⟩ : Town),
                   ⟨1, "B", 3500000, "Сверхкрупный город", 1, 0⟩],
     ∀ j ∈ topIds [(⟨0, "A", 4000000, "Сверхкрупный город", 0, 0⟩ : Town),
                   ⟨1, "B", 3500000, "Сверхкрупный город", 1, 0⟩],
      ConnP (topMstEdges (fun i j => if i = j then 0 else 7)
        [⟨0, "A", 4000000, "Сверхкрупный город", 0, 0⟩,
         ⟨1, "B", 3500000, "Сверхкрупный город", 1, 0⟩]) i j) :=
  build_network_frame_connected (fun i j => if i = j then 0 else 7)
    [⟨0, "A", 4000000, "Сверхкрупный город", 0, 0⟩,
     ⟨1, "B", 3500000, "Сверхкрупный город", 1, 0⟩]
    (by decide) (by decide) (by decide)

/-- C1 (code bug): on a three-town table where the travel-time-nearest
denser settlement of town 2 is the settlement with pandas label 0, the
guard `if nearest_idx and not G.has_edge(...)` is falsy (Python truthiness
of the label 0), so `_connect_levels` falls through to the
Euclidean-distance fallback and links town 2 to town 1 instead: the graph
contains the edge 2–1 and not the claimed travel-time-nearest edge 2–0. -/
theorem connect_levels_truthiness_bug :
    idxmin
      (fun i j => if i = j then 0
        else if (i = 2 ∧ j = 0) ∨ (i = 0 ∧ j = 2) then 5
        else if (i = 2 ∧ j = 1) ∨ (i = 1 ∧ j = 2) then 10 else 40)
      2 [0, 1] = some 0 ∧
    hasEdge (build_network_frame
      (fun i j => if i = j then 0
        else if (i = 2 ∧ j = 0) ∨ (i = 0 ∧ j = 2) then 5
        else if (i = 2 ∧ j = 1) ∨ (i = 1 ∧ j = 2) then 10 else 40)
      [⟨0, "A", 4000000, "Сверхкрупный город", 100, 0⟩,
       ⟨1, "B", 3500000, "Сверхкрупный город", 1, 0⟩,
       ⟨2, "C", 30000, "Малый город", 0, 0⟩]) 2 1 = true ∧
    hasEdge (build_network_frame
      (fun i j => if i = j then 0
        else if (i = 2 ∧ j = 0) ∨ (i = 0 ∧ j = 2) then 5
        else if (i = 2 ∧ j = 1) ∨ (i = 1 ∧ j = 2) then 10 else 40)
      [⟨0, "A", 4000000, "Сверхкрупный город", 100, 0⟩,
       ⟨1, "B", 3500000, "Сверхкрупный город", 1, 0⟩,
       ⟨2, "C", 30000, "Малый город", 0, 0⟩]) 2 0 = false := by
  refine ⟨by decide, by decide, by decide⟩

/-- C9 counterexample: the graph edges carry no weight/travel-time
attribute at all — on a two-town table the single built edge has an empty
time attribute. -/
theorem edges_no_weight_counterexample :
    ¬ (∀ e ∈ build_network_frame (fun i j => if i = j then 0 else 7)
        [⟨0, "A", 4000000, "Сверхкрупный город", 0, 0⟩,
         ⟨1, "B", 3500000, "Сверхкрупный город", 1, 0⟩],
        ∃ t : ℤ, e.time = some t) := by
  intro h
  obtain ⟨t, ht⟩ := h ⟨0, 1, "Сверхкрупный город", none⟩ (by decide)
  cases ht

/-! ## Edge attributes (C9) -/

theorem addEdge_pres (towns : List Town) {es : List Edge} {u v : ℕ}
    {lvl : String} (hP : ∀ e ∈ es, EdgeInv towns e)
    (hQ : ∃ tu ∈ towns, ∃ tv ∈ towns, tu.id = u ∧ tv.id = v ∧
      lvl = tu.level ∧ lvlIdx tu.level ≤ lvlIdx tv.level) :
    ∀ e ∈ addEdge es u v lvl, EdgeInv towns e := by
  intro e he
  unfold addEdge at he
  by_cases hc : hasEdge es u v
  · rw [if_pos hc] at he
    obtain ⟨e0, he0, rfl⟩ := List.mem_map.mp he
    by_cases hm : ((e0.u == u && e0.v == v) || (e0.u == v && e0.v == u)) = true
    · rw [if_pos hm]
      obtain ⟨tu, htu, tv, htv, hu, hv, hl, hle⟩ := hQ
      have hm' : (e0.u = u ∧ e0.v = v) ∨ (e0.u = v ∧ e0.v = u) := by
        simpa using hm
      refine ⟨(hP e0 he0).1, tu, htu, tv, htv, ?_, hl, hle⟩
      rcases hm' with ⟨h1, h2⟩ | ⟨h1, h2⟩
      · exact Or.inl ⟨hu.trans h1.symm, hv.trans h2.symm⟩
      · exact Or.inr ⟨hu.trans h2.symm, hv.trans h1.symm⟩
    · rw [if_neg hm]
      exact hP e0 he0
  · rw [if_neg hc] at he
    rcases List.mem_append.mp he with h | h
    · exact hP e h
    · have he2 : e = ⟨u, v, lvl, none⟩ := by simpa using h
      subst he2
      obtain ⟨tu, htu, tv, htv, hu, hv, hl, hle⟩ := hQ
      exact ⟨rfl, tu, htu, tv, htv, Or.inl ⟨hu, hv⟩, hl, hle⟩

theorem connectPass1_unc_sub (m : ℕ → ℕ → ℤ) (fl : String) (toT : List ℕ) :
    ∀ (l : List ℕ) (st : List Edge × List ℕ),
      ∀ i ∈ (connectPass1 m fl toT l st).2, i ∈ st.2 ∨ i ∈ l := by
  intro l
  induction l with
  | nil => intro st i h; exact Or.inl h
  | cons j rest ih =>
    intro st i h
    simp only [connectPass1] at h
    cases hmin : idxmin m j toT with
    | none =>
      rw [hmin] at h
      rcases ih st i h with h' | h'
      · exact Or.inl h'
      · exact Or.inr (by simp [h'])
    | some nearest =>
      rw [hmin] at h
      dsimp only at h
      by_cases hcond : nearest ≠ 0 ∧ hasEdge st.1 j nearest = false
      · rw [if_pos hcond] at h
        rcases ih _ i h with h' | h'
        · exact Or.inl h'
        · exact Or.inr (by simp [h'])
      · rw [if_neg hcond] at h
        rcases ih _ i h with h' | h'
        · rcases List.mem_append.mp h' with h2 | h2
          · exact Or.inl h2
          · simp at h2
            exact Or.inr (by simp [h2])
        · exact Or.inr (by simp [h'])

theorem connectPass1_pres (m : ℕ → ℕ → ℤ) (towns : List Town) (fl : String)
    (toT : List ℕ)
    (hto : ∀ j ∈ toT, ∃ tv ∈ towns, tv.id = j ∧ lvlIdx fl ≤ lvlIdx tv.level) :
    ∀ (l : List ℕ), (∀ i ∈ l, ∃ tu ∈ towns, tu.id = i ∧ tu.level = fl) →
    ∀ (st : List Edge × List ℕ), (∀ e ∈ st.1, EdgeInv towns e) →
    ∀ e ∈ (connectPass1 m fl toT l st).1, EdgeInv towns e := by
  intro l
  induction l with
  | nil => intro _ st hP e he; exact hP e he
  | cons i rest ih =>
    intro hl st hP e he
    have hlr : ∀ i' ∈ rest, ∃ tu ∈ towns, tu.id = i' ∧ tu.level = fl :=
      fun i' hi' => hl i' (by simp [hi'])
    simp only [connectPass1] at he
    cases hmin : idxmin m i toT with
    | none =>
      rw [hmin] at he
      exact ih hlr st hP e he
    | some nearest =>
      rw [hmin] at he
      dsimp only at he
      by_cases hcond : nearest ≠ 0 ∧ hasEdge st.1 i nearest = false
      · rw [if_pos hcond] at he
        refine ih hlr _ ?_ e he
        intro e' he'
        rcases List.mem_append.mp he' with h | h
        · exact hP e' h
        · have he2 : e' = ⟨i, nearest, fl, none⟩ := by simpa using h
          subst he2
          obtain ⟨tu, htu, hui, hul⟩ := hl i (by simp)
          obtain ⟨tv, htv, hvj, hvl⟩ := hto nearest (idxmin_mem m i toT nearest hmin)
          exact ⟨rfl, tu, htu, tv, htv, Or.inl ⟨hui, hvj⟩, hul.symm,
            by rw [hul]; exact hvl⟩
      · rw [if_neg hcond] at he
        exact ih hlr (st.1, st.2 ++ [i]) hP e he

theorem connectPass2_pres (towns : List Town) (fl : String) (toT : List ℕ)
    (hto : ∀ j ∈ toT, ∃ tv ∈ towns, tv.id = j ∧ lvlIdx fl ≤ lvlIdx tv.level) :
    ∀ (l : List ℕ), (∀ i ∈ l, ∃ tu ∈ towns, tu.id = i ∧ tu.level = fl) →
    ∀ (es : List Edge), (∀ e ∈ es, EdgeInv towns e) →
    ∀ e ∈ connectPass2 towns fl toT l es, EdgeInv towns e := by
  intro l
  induction l with
  | nil => intro _ es hP e he; exact hP e he
  | cons i rest ih =>
    intro hl es hP e he
    have hlr : ∀ i' ∈ rest, ∃ tu ∈ towns, tu.id = i' ∧ tu.level = fl :=
      fun i' hi' => hl i' (by simp [hi'])
    simp only [connectPass2] at he
    cases hmin : euclidMin towns i toT with
    | none =>
      rw [hmin] at he
      exact ih hlr es hP e he
    | some nearest =>
      rw [hmin] at he
      dsimp only at he
      refine ih hlr _ ?_ e he
      apply addEdge_pres towns hP
      obtain ⟨tu, htu, hui, hul⟩ := hl i (by simp)
      obtain ⟨tv, htv, hvj, hvl⟩ := hto nearest (euclidMin_mem towns i toT nearest hmin)
      exact ⟨tu, htu, tv, htv, hui, hvj, hul.symm, by rw [hul]; exact hvl⟩

theorem connectLevels_pres (m : ℕ → ℕ → ℤ) (towns : List Town) (fl : String)
    (tls : List String) (es : List Edge)
    (hstep : ∀ l' ∈ tls, lvlIdx fl ≤ lvlIdx l')
    (hP : ∀ e ∈ es, EdgeInv towns e) :
    ∀ e ∈ connectLevels m towns fl tls es, EdgeInv towns e := by
  unfold connectLevels
  by_cases hemp : ((towns.filter (fun t => tls.contains t.level)).map Town.id).isEmpty
  · simp only [hemp, if_true]
    exact hP
  · simp only [hemp, if_false]
    have hto : ∀ j ∈ (towns.filter (fun t => tls.contains t.level)).map Town.id,
        ∃ tv ∈ towns, tv.id = j ∧ lvlIdx fl ≤ lvlIdx tv.level := by
      intro j hj
      obtain ⟨tv, htv, rfl⟩ := List.mem_map.mp hj
      obtain ⟨htvm, htvl⟩ := List.mem_filter.mp htv
      exact ⟨tv, htvm, rfl, hstep tv.level (by simpa using htvl)⟩
    have hfrom : ∀ i ∈ (towns.filter (fun t => t.level == fl)).map Town.id,
        ∃ tu ∈ towns, tu.id = i ∧ tu.level = fl := by
      intro i hi
      obtain ⟨tu, htu, rfl⟩ := List.mem_map.mp hi
      obtain ⟨htum, htul⟩ := List.mem_filter.mp htu
      exact ⟨tu, htum, rfl, by simpa using htul⟩
    apply connectPass2_pres towns fl _ hto _ ?_ _ ?_
    · intro i hi
      rcases connectPass1_unc_sub m fl _ _ (es, []) i hi with h | h
      · cases h
      · exact hfrom i h
    · exact connectPass1_pres m towns fl _ hto _ hfrom (es, []) hP

theorem steps_fold_pres (m : ℕ → ℕ → ℤ) (towns : List Town) :
    ∀ (steps : List (String × List String)),
      (∀ p ∈ steps, ∀ l' ∈ p.2, lvlIdx p.1 ≤ lvlIdx l') →
    ∀ (es : List Edge), (∀ e ∈ es, EdgeInv towns e) →
    ∀ e ∈ steps.foldl (fun es2 st => connectLevels m towns st.1 st.2 es2) es,
      EdgeInv towns e := by
  intro steps
  induction steps with
  | nil => intro _ es hP e he; exact hP e he
  | cons st rest ih =>
    intro hsteps es hP e he
    rw [List.foldl_cons] at he
    refine ih (fun p hp => hsteps p (by simp [hp])) _ ?_ e he
    exact connectLevels_pres m towns st.1 st.2 es (hsteps st (by simp)) hP

theorem foldl_addEdge_pres (towns : List Town) (lvl : String)
    (Q : ℕ × ℕ → Prop)
    (hQ : ∀ p, Q p → ∃ tu ∈ towns, ∃ tv ∈ towns, tu.id = p.1 ∧ tv.id = p.2 ∧
      lvl = tu.level ∧ lvlIdx tu.level ≤ lvlIdx tv.level) :
    ∀ (ps : List (ℕ × ℕ)), (∀ p ∈ ps, Q p) →
    ∀ (es : List Edge), (∀ e ∈ es, EdgeInv towns e) →
    ∀ e ∈ ps.foldl (fun es2 p => addEdge es2 p.1 p.2 lvl) es, EdgeInv towns e := by
  intro ps
  induction ps with
  | nil => intro _ es hP e he; exact hP e he
  | cons p rest ih =>
    intro hps es hP e he
    rw [List.foldl_cons] at he
    refine ih (fun q hq => hps q (by simp [hq])) _ ?_ e he
    exact addEdge_pres towns hP (hQ p (hps p (by simp)))

theorem connectSameLevel_pres (m : ℕ → ℕ → ℤ) (towns : List Town)
    (lvl : String) (es : List Edge) (hP : ∀ e ∈ es, EdgeInv towns e) :
    ∀ e ∈ connectSameLevel m towns lvl es, EdgeInv towns e := by
  unfold connectSameLevel
  by_cases hlen : 1 < ((towns.filter (fun t => t.level == lvl)).map Town.id).length
  · simp only [hlen, if_true]
    apply foldl_addEdge_pres towns lvl
      (fun p => p.1 ∈ (towns.filter (fun t => t.level == lvl)).map Town.id ∧
        p.2 ∈ (towns.filter (fun t => t.level == lvl)).map Town.id) ?_ _ ?_ _ hP
    · intro p hp
      obtain ⟨h1, h2⟩ := hp
      obtain ⟨tu, htu, hu⟩ := List.mem_map.mp h1
      obtain ⟨tv, htv, hv⟩ := List.mem_map.mp h2
      obtain ⟨htum, htul⟩ := List.mem_filter.mp htu
      obtain ⟨htvm, htvl⟩ := List.mem_filter.mp htv
      have hul : tu.level = lvl := by simpa using htul
      have hvl : tv.level = lvl := by simpa using htvl
      exact ⟨tu, htum, tv, htvm, hu, hv, hul.symm, by rw [hul, hvl]⟩
    · intro p hp
      rcases kruskalGo_acc_sub _ _ _ p hp with h | ⟨w, hw⟩
      · cases h
      · have hmem := mstCandidates_mem m _ (p.1, p.2, w) (sortCand_mem.mp hw)
        exact ⟨hmem.1, hmem.2⟩
  · simp only [hlen, if_false]
    exact hP

/-- C9 (amended): the network edges carry no weight/travel-time attribute
at all; every edge does carry a `level` attribute, equal to the level of
the less dense of its two endpoints (`EdgeInv`). -/
theorem edges_level_no_weight (m : ℕ → ℕ → ℤ) (towns : List Town) :
    ∀ e ∈ build_network_frame m towns, EdgeInv towns e := by
  unfold build_network_frame
  apply connectSameLevel_pres
  apply steps_fold_pres
  · intro p hp l' hl'
    have := stepsOf_lt levels levels_nodup p.1 p.2 (by simpa using hp) l' hl'
    exact Nat.le_of_lt this
  · intro e he
    cases he

/-- Witness for the amended C9: the single MST edge of the two-town table
satisfies the attribute invariant. -/
theorem edges_level_no_weight_witness :
    EdgeInv [⟨0, "A", 4000000, "Сверхкрупный город", 0, 0⟩,
             ⟨1, "B", 3500000, "Сверхкрупный город", 1, 0⟩]
      ⟨0, 1, "Сверхкрупный город", none⟩ :=
  edges_level_no_weight (fun i j => if i = j then 0 else 7)
    [⟨0, "A", 4000000, "Сверхкрупный город", 0, 0⟩,
     ⟨1, "B", 3500000, "Сверхкрупный город", 1, 0⟩]
    ⟨0, 1, "Сверхкрупный город", none⟩ (by decide)

end PopFrame
